import Mathlib

/-!
Verification of the relation-graph builder of the arcforge repository
(src/script/build_relation_graph.py).

The Python module is embedded shallowly below.  Dictionaries with optional
keys become structures with Option fields; a key that is absent corresponds
to none.  Python truthiness on strings (the empty string is falsy) is
modelled by the helper truthyOpt, and truthiness on lists by truthyList.
The process-wide node dictionary becomes an insertion-ordered association
list with dictionary update semantics (setNode replaces the value of an
existing key in place and appends new keys at the end, exactly like a
Python dict).  The build itself is split into the same phases the source
function executes in sequence: the node-creation pass, the edge-synthesis
pass, the trader pass, and the reverse-edge pass.
-/

/-- A JSON scalar value, as carried through the Python dictionaries. -/
inductive JVal where
  | s (v : String)
  | i (v : Int)
  | b (v : Bool)
deriving DecidableEq, Repr

/-- Rendering of a JSON scalar inside a Python f-string. -/
def jvalStr : JVal → String
  | .s v => v
  | .i v => toString v
  | .b v => if v then "True" else "False"

/-- A dependency tag attached to an edge.  The Python code builds these as
small dictionaries with a type key; each shape becomes one constructor. -/
inductive Tag where
  | named (ty : String) (nm : String)
  | price (amount : Option JVal) (currency : Option JVal)
  | stock (value : Option JVal) (is_limited : Option JVal)
  | ammo_count (value : JVal)
deriving DecidableEq, Repr

/-- An edge dictionary as produced by create_edge.  Absent keys are none. -/
structure Edge where
  name : String
  direction : String
  relation : String
  quantity : Option JVal := none
  dependency : Option (List Tag) := none
  input_level : Option String := none
  output_level : Option String := none
deriving DecidableEq, Repr

/-- A node dictionary as produced by create_node.  Absent keys are none. -/
structure Node where
  name : String
  node_type : String
  wiki_url : Option String := none
  source_url : Option String := none
  infobox : Option (List (String × JVal)) := none
  image_urls : Option (List (String × JVal)) := none
  edges : List Edge := []
deriving DecidableEq, Repr

/-- One material line of a recipe: a dictionary with item and quantity. -/
structure Material where
  item : Option String := none
  quantity : Option JVal := none
deriving DecidableEq, Repr

/-- One crafting definition of an item record. -/
structure CraftRecipe where
  result_level : Option String := none
  workshop : Option String := none
  blueprint_locked : Bool := false
  recipe : Option (List Material) := none
deriving DecidableEq, Repr

/-- One upgrade definition of an item record. -/
structure UpgradeDef where
  input_level : Option String := none
  output_level : Option String := none
  workshop : Option String := none
  blueprint_locked : Bool := false
  upgrade_perks : Option (List String) := none
  recipe : Option (List Material) := none
deriving DecidableEq, Repr

/-- One repair definition of an item record. -/
structure RepairDef where
  item_name : Option String := none
  durability : Option JVal := none
  recipe : Option (List Material) := none
deriving DecidableEq, Repr

/-- One recycling or salvaging definition inside the recycling block. -/
structure BreakdownDef where
  input : Option String := none
  materials : Option (List Material) := none
deriving DecidableEq, Repr

/-- The recycling block of an item record. -/
structure RecyclingBlock where
  recycling : Option (List BreakdownDef) := none
  salvaging : Option (List BreakdownDef) := none
deriving DecidableEq, Repr

/-- One item record of the items database. -/
structure ItemRecord where
  name : Option String := none
  wiki_url : Option String := none
  source_url : Option String := none
  infobox : Option (List (String × JVal)) := none
  image_urls : Option (List (String × JVal)) := none
  crafting : Option (List CraftRecipe) := none
  upgrades : Option (List UpgradeDef) := none
  repairs : Option (List RepairDef) := none
  recycling : Option RecyclingBlock := none
deriving DecidableEq, Repr

/-- One shop listing of a trader record. -/
structure ShopItem where
  name : Option String := none
  price : Option JVal := none
  currency : Option JVal := none
  stock : Option JVal := none
  is_limited : Option JVal := none
  ammo_count : Option JVal := none
deriving DecidableEq, Repr

/-- One trader record of the traders database. -/
structure TraderRecord where
  name : Option String := none
  wiki_url : Option String := none
  source_url : Option String := none
  image_urls : Option (List (String × JVal)) := none
  shop : Option (List ShopItem) := none
deriving DecidableEq, Repr

/-- Python truthiness of an optional string: None and the empty string are
falsy, every other string is kept. -/
def truthyOpt : Option String → Option String
  | some "" => none
  | o => o

/-- Python truthiness of an optional list or map: None and the empty
collection are falsy. -/
def truthyList : Option (List (String × JVal)) → Option (List (String × JVal))
  | some [] => none
  | o => o

/-- create_edge of the source: builds an edge dictionary, storing quantity
only when it is not None, the dependency only when the list is truthy, and
each level only when the string is truthy. -/
def create_edge (name direction relation : String) (quantity : Option JVal)
    (dependency : Option (List Tag)) (input_level output_level : Option String) :
    Edge :=
  { name := name
    direction := direction
    relation := relation
    quantity := quantity
    dependency := match dependency with
      | some [] => none
      | d => d
    input_level := truthyOpt input_level
    output_level := truthyOpt output_level }

/-- get_base_item_name of the source: the name field of the record with the
empty string as default. -/
def get_base_item_name (item_data : ItemRecord) : String :=
  item_data.name.getD ""

/-- process_crafting of the source: one craft_from edge per named material
of each crafting definition. -/
def process_crafting (item_data : ItemRecord) (_item_name : String) : List Edge :=
  match item_data.crafting with
  | none => []
  | some recipes =>
      recipes.flatMap (fun craft_recipe =>
        let result_level := truthyOpt craft_recipe.result_level
        let dependency : Option (List Tag) :=
          match craft_recipe.workshop with
          | some w => some [Tag.named "workshop" w]
          | none => none
        let dependency : Option (List Tag) :=
          if craft_recipe.blueprint_locked then
            some (dependency.getD [] ++ [Tag.named "blueprint" "required"])
          else dependency
        let dependency : Option (List Tag) :=
          match result_level with
          | some rl => some (dependency.getD [] ++ [Tag.named "result_level" rl])
          | none => dependency
        match craft_recipe.recipe with
        | none => []
        | some mats =>
            mats.filterMap (fun material =>
              (truthyOpt material.item).map (fun material_name =>
                create_edge material_name "in" "craft_from" material.quantity
                  dependency none result_level)))

/-- The body of the loop of process_upgrades for one upgrade definition. -/
def process_one_upgrade (item_name : String) (upgrade : UpgradeDef) : List Edge :=
  let input_level := truthyOpt upgrade.input_level
  let output_level := truthyOpt upgrade.output_level
  let dependency : Option (List Tag) :=
    match upgrade.workshop with
    | some w => some [Tag.named "workshop" w]
    | none => none
  let dependency : Option (List Tag) :=
    if upgrade.blueprint_locked then
      some (dependency.getD [] ++ [Tag.named "blueprint" "required"])
    else dependency
  let dependency : Option (List Tag) :=
    match input_level, output_level with
    | some il, some ol =>
        some (dependency.getD [] ++ [Tag.named "upgrade_level" (il ++ " -> " ++ ol)])
    | _, _ => dependency
  let materialEdges : List Edge :=
    match upgrade.recipe with
    | none => []
    | some mats =>
        mats.filterMap (fun material =>
          (truthyOpt material.item).map (fun material_name =>
            create_edge material_name "in" "upgrade_from" material.quantity
              dependency input_level output_level))
  let selfEdges : List Edge :=
    match input_level, output_level with
    | some il, some ol =>
        let edge_dep : List Tag := dependency.getD []
        let edge_dep : List Tag :=
          match upgrade.upgrade_perks with
          | some perks => edge_dep ++ [Tag.named "perks" (String.intercalate ", " perks)]
          | none => edge_dep
        [create_edge item_name "out" "upgrade_to" none
          (if edge_dep = [] then none else some edge_dep) (some il) (some ol)]
    | _, _ => []
  materialEdges ++ selfEdges

/-- process_upgrades of the source: upgrade_from edges per named material,
plus one self-referencing upgrade_to edge when both levels are present. -/
def process_upgrades (item_data : ItemRecord) (item_name : String) : List Edge :=
  match item_data.upgrades with
  | none => []
  | some upgrades => upgrades.flatMap (process_one_upgrade item_name)

/-- process_repairs of the source: one repair_from edge per named material
of each repair definition. -/
def process_repairs (item_data : ItemRecord) (_item_name : String) : List Edge :=
  match item_data.repairs with
  | none => []
  | some repairs =>
      repairs.flatMap (fun repair =>
        let repair_item_name := truthyOpt repair.item_name
        let dependency : Option (List Tag) :=
          match repair.durability with
          | some d => some [Tag.named "durability" ("+" ++ jvalStr d)]
          | none => none
        let dependency : Option (List Tag) :=
          match repair_item_name with
          | some rn => some (dependency.getD [] ++ [Tag.named "repair_level" rn])
          | none => dependency
        match repair.recipe with
        | none => []
        | some mats =>
            mats.filterMap (fun material =>
              (truthyOpt material.item).map (fun material_name =>
                create_edge material_name "in" "repair_from" material.quantity
                  dependency repair_item_name none)))

/-- process_recycling of the source: recycle_to and salvage_to edges per
named output material of the recycling block. -/
def process_recycling (item_data : ItemRecord) (_item_name : String) : List Edge :=
  match item_data.recycling with
  | none => []
  | some recycling =>
      (match recycling.recycling with
       | none => []
       | some rs =>
           rs.flatMap (fun recycle =>
             let recycle_input := truthyOpt recycle.input
             let dependency : Option (List Tag) :=
               match recycle_input with
               | some ri => some [Tag.named "recycle_level" ri]
               | none => none
             match recycle.materials with
             | none => []
             | some mats =>
                 mats.filterMap (fun material =>
                   (truthyOpt material.item).map (fun material_name =>
                     create_edge material_name "out" "recycle_to" material.quantity
                       dependency recycle_input none))))
      ++
      (match recycling.salvaging with
       | none => []
       | some ss =>
           ss.flatMap (fun salvage =>
             let salvage_input := truthyOpt salvage.input
             let dependency : Option (List Tag) :=
               match salvage_input with
               | some si => some [Tag.named "salvage_level" si]
               | none => none
             match salvage.materials with
             | none => []
             | some mats =>
                 mats.filterMap (fun material =>
                   (truthyOpt material.item).map (fun material_name =>
                     create_edge material_name "out" "salvage_to" material.quantity
                       dependency salvage_input none))))

/-- create_node of the source: a node dictionary with an empty edge list,
storing each descriptive attribute only when it is truthy. -/
def create_node (name node_type : String) (wiki_url source_url : Option String)
    (infobox image_urls : Option (List (String × JVal))) : Node :=
  { name := name
    node_type := node_type
    wiki_url := truthyOpt wiki_url
    source_url := truthyOpt source_url
    infobox := truthyList infobox
    image_urls := truthyList image_urls
    edges := [] }

/-- The node table: an insertion-ordered association list standing for the
Python dict mapping names to nodes. -/
abbrev Nodes := List (String × Node)

/-- Dictionary lookup: the value at the first occurrence of the key. -/
def findNode : Nodes → String → Option Node
  | [], _ => none
  | (k, v) :: rest, key => if k = key then some v else findNode rest key

/-- Dictionary assignment: replace the value at an existing key in place,
or append a new binding at the end, like assignment into a Python dict. -/
def setNode : Nodes → String → Node → Nodes
  | [], key, v => [(key, v)]
  | (k, w) :: rest, key, v =>
      if k = key then (key, v) :: rest else (k, w) :: setNode rest key v

/-- The edge list of the node stored under a key, empty when absent. -/
def edgesOf (nodes : Nodes) (key : String) : List Edge :=
  match findNode nodes key with
  | some node => node.edges
  | none => []

/-- The first pass of build_relation_graph: create one item node per truthy
base name, first record wins. -/
def pass1Step (nodes : Nodes) (item_data : ItemRecord) : Nodes :=
  let base_name := get_base_item_name item_data
  if base_name = "" then nodes
  else if (findNode nodes base_name).isSome then nodes
  else
    setNode nodes base_name
      (create_node base_name "item" item_data.wiki_url item_data.source_url
        item_data.infobox item_data.image_urls)

/-- All forward edges synthesized for one item record, in source order. -/
def item_edges (item_data : ItemRecord) (base_name : String) : List Edge :=
  process_crafting item_data base_name
    ++ process_upgrades item_data base_name
    ++ process_repairs item_data base_name
    ++ process_recycling item_data base_name

/-- The second pass of build_relation_graph: extend the edge list of the
node of each named record with its synthesized forward edges. -/
def pass2Step (nodes : Nodes) (item_data : ItemRecord) : Nodes :=
  let base_name := get_base_item_name item_data
  if base_name = "" then nodes
  else
    match findNode nodes base_name with
    | none => nodes
    | some node =>
        setNode nodes base_name
          { node with edges := node.edges ++ item_edges item_data base_name }

/-- The first two passes of build_relation_graph over the items database. -/
def assemble (items_database : List ItemRecord) : Nodes :=
  items_database.foldl pass2Step (items_database.foldl pass1Step [])

/-- The dependency list built for one shop listing: price, stock and ammo
count information, in source order. -/
def shop_dependency (item : ShopItem) : List Tag :=
  (if item.price.isSome || item.currency.isSome then
    [Tag.price item.price item.currency]
   else [])
  ++ (if item.stock.isSome || item.is_limited.isSome then
    [Tag.stock item.stock item.is_limited]
   else [])
  ++ (match item.ammo_count with
      | some v => [Tag.ammo_count v]
      | none => [])

/-- Appending one edge to the edge list of the node stored under a key,
as the source appends into the dictionary entry in place. -/
def appendEdge (nodes : Nodes) (key : String) (e : Edge) : Nodes :=
  match findNode nodes key with
  | some node => setNode nodes key { node with edges := node.edges ++ [e] }
  | none => nodes

/-- Creation of a stub item node under a key when no node exists yet. -/
def ensureNode (nodes : Nodes) (key : String) : Nodes :=
  if (findNode nodes key).isSome then nodes
  else setNode nodes key (create_node key "item" none none none none)

/-- The body of the shop loop of the trader pass: append the trader edge to
the trader node, create the item node if missing, and append the special
sold_by reverse edge to the item node. -/
def processShopItem (nodes : Nodes) (trader_name : String) (item : ShopItem) :
    Nodes :=
  match truthyOpt item.name with
  | none => nodes
  | some item_name =>
      let dependency := shop_dependency item
      let dep : Option (List Tag) :=
        if dependency = [] then none else some dependency
      let edge := create_edge item_name "out" "trader" (some (JVal.i 1)) dep none none
      let nodes := appendEdge nodes trader_name edge
      let nodes := ensureNode nodes item_name
      let reverse_edge := create_edge trader_name "in" "sold_by" (some (JVal.i 1)) dep none none
      appendEdge nodes item_name reverse_edge

/-- Processing of one trader record: the trader node is assigned
unconditionally (overwriting any node of that name), then its shop is
processed listing by listing. -/
def processTrader (nodes : Nodes) (trader_data : TraderRecord) : Nodes :=
  match truthyOpt trader_data.name with
  | none => nodes
  | some trader_name =>
      let nodes :=
        setNode nodes trader_name
          (create_node trader_name "trader" trader_data.wiki_url
            trader_data.source_url none trader_data.image_urls)
      (trader_data.shop.getD []).foldl
        (fun ns it => processShopItem ns trader_name it) nodes

/-- The trader pass of build_relation_graph: nothing when the traders
database is absent. -/
def process_traders (nodes : Nodes) (traders_database : Option (List TraderRecord)) :
    Nodes :=
  match traders_database with
  | none => nodes
  | some traders => traders.foldl processTrader nodes

/-- The reverse relation table of the third pass: the derived relation and
its direction, or none for a relation the pass does not cover. -/
def reverse_of (relation : String) : Option (String × String) :=
  if relation = "craft_from" then some ("craft_to", "out")
  else if relation = "craft_to" then some ("craft_from", "in")
  else if relation = "upgrade_from" then some ("upgrade_to", "out")
  else if relation = "upgrade_to" then some ("upgrade_from", "in")
  else if relation = "repair_from" then some ("repair_to", "out")
  else if relation = "repair_to" then some ("repair_from", "in")
  else if relation = "recycle_to" then some ("recycle_from", "in")
  else if relation = "recycle_from" then some ("recycle_to", "out")
  else if relation = "salvage_to" then some ("salvage_from", "in")
  else if relation = "salvage_from" then some ("salvage_to", "out")
  else none

/-- The collection phase of the third pass: all buffered reverse edges, as
pairs of target name and reverse edge, with the levels swapped. -/
def reverse_pairs (nodes : Nodes) : List (String × Edge) :=
  nodes.flatMap (fun p =>
    p.2.edges.filterMap (fun edge =>
      (reverse_of edge.relation).map (fun rd =>
        (edge.name,
         create_edge p.1 rd.2 rd.1 edge.quantity edge.dependency
           edge.output_level edge.input_level))))

/-- The application phase of the third pass for one buffered reverse edge:
create the target node as a stub when missing, then append the edge. -/
def apply_reverse_step (nodes : Nodes) (pr : String × Edge) : Nodes :=
  appendEdge (ensureNode nodes pr.1) pr.1 pr.2

/-- build_relation_graph of the source: the two item passes, the trader
pass, then the buffered reverse-edge pass. -/
def build_relation_graph (items_database : List ItemRecord)
    (traders_database : Option (List TraderRecord)) : Nodes :=
  let nodes := assemble items_database
  let nodes := process_traders nodes traders_database
  (reverse_pairs nodes).foldl apply_reverse_step nodes

/-! Vocabulary of the specification, used only to state the claims. -/

/-- Modelled from the spec: the relation taxonomy of section 3, read in both
orientations, including the trader and sold_by pair. -/
def spec_inverse (relation : String) : Option String :=
  if relation = "craft_from" then some "craft_to"
  else if relation = "craft_to" then some "craft_from"
  else if relation = "upgrade_from" then some "upgrade_to"
  else if relation = "upgrade_to" then some "upgrade_from"
  else if relation = "repair_from" then some "repair_to"
  else if relation = "repair_to" then some "repair_from"
  else if relation = "recycle_to" then some "recycle_from"
  else if relation = "recycle_from" then some "recycle_to"
  else if relation = "salvage_to" then some "salvage_from"
  else if relation = "salvage_from" then some "salvage_to"
  else if relation = "trader" then some "sold_by"
  else if relation = "sold_by" then some "trader"
  else none

/-- Modelled from the spec: the opposite of an edge direction. -/
def opposite (direction : String) : String :=
  if direction = "in" then "out" else "in"

/-- The bidirectional-closure condition for one edge owned by a node: the
target owns a matching edge back, with the inverse relation, the opposite
direction, the same quantity and dependency, and the levels swapped. -/
def hasInverse (nodes : Nodes) (owner : String) (e : Edge) : Prop :=
  ∃ e2 ∈ edgesOf nodes e.name,
    e2.name = owner ∧
    spec_inverse e.relation = some e2.relation ∧
    e2.direction = opposite e.direction ∧
    e2.quantity = e.quantity ∧
    e2.dependency = e.dependency ∧
    e2.input_level = e.output_level ∧
    e2.output_level = e.input_level

instance (nodes : Nodes) (owner : String) (e : Edge) :
    Decidable (hasInverse nodes owner e) := by
  unfold hasInverse; infer_instance

/-- The key under which a trader record is stored, none when it is skipped. -/
def trader_key (t : TraderRecord) : Option String := truthyOpt t.name

/-- The truthy names listed in the shop of a trader record. -/
def shop_names (t : TraderRecord) : List String :=
  (t.shop.getD []).filterMap (fun it => truthyOpt it.name)

/-- Freshness of a trader list: no trader name repeats an earlier trader
name or an item name listed in the shop of an earlier trader, so the trader
pass never replaces a node that already carries trader or sold_by edges. -/
def freshList : List TraderRecord → Bool
  | [] => true
  | t :: ts =>
      ts.all (fun t2 =>
        match trader_key t2 with
        | none => true
        | some n2 =>
            !(decide (trader_key t = some n2)) && !(decide (n2 ∈ shop_names t)))
      && freshList ts

/-- The relations the claims call incoming, per the taxonomy table. -/
def in_relations : List String :=
  ["craft_from", "upgrade_from", "repair_from", "recycle_from", "salvage_from", "sold_by"]

/-- The relations the claims call outgoing, per the taxonomy table. -/
def out_relations : List String :=
  ["craft_to", "upgrade_to", "repair_to", "recycle_to", "salvage_to", "trader"]

/-- The descriptive attributes of a node, as one tuple. -/
def nodeAttrs (node : Node) :
    String × Option String × Option String ×
      Option (List (String × JVal)) × Option (List (String × JVal)) :=
  (node.node_type, node.wiki_url, node.source_url, node.infobox, node.image_urls)

/-! Well-formedness predicates used by the invariant proofs. -/

/-- The relation and direction pairs a synthesizer can emit. -/
def synth_pair (e : Edge) : Prop :=
  (e.relation = "craft_from" ∧ e.direction = "in") ∨
  (e.relation = "upgrade_from" ∧ e.direction = "in") ∨
  (e.relation = "upgrade_to" ∧ e.direction = "out") ∨
  (e.relation = "repair_from" ∧ e.direction = "in") ∨
  (e.relation = "recycle_to" ∧ e.direction = "out") ∨
  (e.relation = "salvage_to" ∧ e.direction = "out")

/-- The shape of the edges the trader pass emits: trader out or sold_by in,
with no levels. -/
def ts_pair (e : Edge) : Prop :=
  ((e.relation = "trader" ∧ e.direction = "out") ∨
   (e.relation = "sold_by" ∧ e.direction = "in")) ∧
  e.input_level = none ∧ e.output_level = none

/-- Normalization enforced by create_edge: levels are never stored as the
empty string and the dependency is never stored as the empty list. -/
def norm_edge (e : Edge) : Prop :=
  e.input_level ≠ some "" ∧ e.output_level ≠ some "" ∧ e.dependency ≠ some []

/-- Well-formedness of an edge after the item passes. -/
def wfA (e : Edge) : Prop := synth_pair e ∧ norm_edge e

/-- Well-formedness of an edge after the trader pass. -/
def wfB (e : Edge) : Prop := (synth_pair e ∨ ts_pair e) ∧ norm_edge e

/-- All edges of all nodes of a table satisfy a predicate. -/
def AllE (P : Edge → Prop) (nodes : Nodes) : Prop :=
  ∀ p ∈ nodes, ∀ e ∈ p.2.edges, P e

/-! Concrete inputs used by the scenario claim, the counterexamples and the
witnesses. -/

/-- The item record of the simple craft scenario: one recipe, two B at a
workbench. -/
def itemA6 : ItemRecord :=
  { name := some "A"
    crafting := some [{ workshop := some "Workbench"
                        recipe := some [{ item := some "B", quantity := some (JVal.i 2) }] }] }

/-- The craft_from edge expected on node A in the scenario. -/
def edgeA6 : Edge :=
  { name := "B", direction := "in", relation := "craft_from"
    quantity := some (JVal.i 2)
    dependency := some [Tag.named "workshop" "Workbench"] }

/-- The craft_to edge expected on node B in the scenario. -/
def edgeB6 : Edge :=
  { name := "A", direction := "out", relation := "craft_to"
    quantity := some (JVal.i 2)
    dependency := some [Tag.named "workshop" "Workbench"] }

/-- A trader selling one item, used to refute the unrestricted closure. -/
def trT1 : TraderRecord := { name := some "T", shop := some [{ name := some "I" }] }

/-- A second trader of the same name, whose assignment wipes the first. -/
def trT2 : TraderRecord := { name := some "T" }

/-- The sold_by edge left dangling by the overwrite in the counterexample. -/
def soldByIT : Edge :=
  { name := "T", direction := "in", relation := "sold_by"
    quantity := some (JVal.i 1) }

/-- First trader record named X, carrying one wiki url. -/
def trX1 : TraderRecord := { name := some "X", wiki_url := some "uA" }

/-- Second trader record named X, carrying another wiki url. -/
def trX2 : TraderRecord := { name := some "X", wiki_url := some "uB" }

/-- An item record whose only upgrade definition is missing its input
level but has a recipe. -/
def itemC3 : ItemRecord :=
  { name := some "A"
    upgrades := some [{ output_level := some "Mk2"
                        recipe := some [{ item := some "C", quantity := some (JVal.i 1) }] }] }

/-- A trader used to show the sold_by edge exists before the resolver runs. -/
def trC4 : TraderRecord := { name := some "T", shop := some [{ name := some "I" }] }

/-- The node table after the trader pass in the C4 counterexample. -/
def n2C4 : Nodes := process_traders (assemble []) (some [trC4])

/-- An upgrade definition missing its output level, for the C3 witness. -/
def upW3 : UpgradeDef :=
  { input_level := some "Mk1"
    recipe := some [{ item := some "C", quantity := some (JVal.i 1) }] }

/-- The single edge that upgrade definition produces. -/
def edgeW3 : Edge :=
  { name := "C", direction := "in", relation := "upgrade_from"
    quantity := some (JVal.i 1), input_level := some "Mk1" }

/-- First of two item records sharing the name N. -/
def itemW2a : ItemRecord := { name := some "N", wiki_url := some "first" }

/-- Second of two item records sharing the name N. -/
def itemW2b : ItemRecord := { name := some "N", wiki_url := some "second" }

/-- A crafting definition holding a given recipe, for the drop claims. -/
def craftWith (mats : List Material) : ItemRecord :=
  { name := some "A", crafting := some [{ recipe := some mats }] }

/-- A material entry with a missing name field. -/
def matNoName : Material := { quantity := some (JVal.i 5) }

/-- A material entry whose name field is the empty string. -/
def matEmptyName : Material := { item := some "", quantity := some (JVal.i 5) }

/-- A named material entry, kept by the drop claims. -/
def matB : Material := { item := some "B", quantity := some (JVal.i 3) }

/-- A shop listing with a missing name field. -/
def shopNoName : ShopItem := { price := some (JVal.i 7) }

/-- An item record whose name field is the empty string. -/
def itemEmptyName : ItemRecord := { name := some "", wiki_url := some "w" }

/-- A trader record whose name field is the empty string. -/
def traderEmptyName : TraderRecord := { name := some "", wiki_url := some "w" }

/-- A one-node table with a trader node named T, for the C4 witness. -/
def tableW4 : Nodes := [("T", create_node "T" "trader" none none none none)]

/-- A shop listing of item I, for the C4 witness. -/
def shopW4 : ShopItem := { name := some "I", price := some (JVal.i 500) }

/-- Edge-membership monotonicity between two node tables: every edge of
every node of the first is still there in the second. -/
def GrowsTo (g1 g2 : Nodes) : Prop :=
  ∀ k e, e ∈ edgesOf g1 k → e ∈ edgesOf g2 k

/-- The keys of a node table are pairwise distinct, as in a Python dict. -/
def NodupKeys (nodes : Nodes) : Prop := (nodes.map Prod.fst).Nodup

/-- Every trader or sold_by edge of the table has its inverse present. -/
def tsOK (nodes : Nodes) : Prop :=
  ∀ a e, e ∈ edgesOf nodes a →
    e.relation = "trader" ∨ e.relation = "sold_by" → hasInverse nodes a e

/-- Every trader or sold_by edge of the table lives on a node, and points
at a node, drawn from a given name list. -/
def tsDom (nodes : Nodes) (used : List String) : Prop :=
  ∀ a e, e ∈ edgesOf nodes a →
    e.relation = "trader" ∨ e.relation = "sold_by" →
    a ∈ used ∧ e.name ∈ used

/-- All node names a trader record can create or touch with trader or
sold_by edges: its own key and its shop listing names. -/
def trader_names (t : TraderRecord) : List String :=
  (trader_key t).toList ++ shop_names t

/-! Basic lemmas about the node table. -/

theorem findNode_setNode_self (nodes : Nodes) (key : String) (v : Node) :
    findNode (setNode nodes key v) key = some v := by
  induction nodes with
  | nil => simp [setNode, findNode]
  | cons p rest ih =>
      by_cases h : p.1 = key
      · simp [setNode, h, findNode]
      · simp [setNode, h, findNode, ih]

theorem findNode_setNode_ne (nodes : Nodes) (key k2 : String) (v : Node)
    (h : key ≠ k2) : findNode (setNode nodes key v) k2 = findNode nodes k2 := by
  induction nodes with
  | nil => simp [setNode, findNode, h]
  | cons p rest ih =>
      by_cases hp : p.1 = key
      · simp [setNode, hp, findNode, h]
      · simp [setNode, hp, findNode, ih]

theorem mem_setNode (nodes : Nodes) (key : String) (v : Node) (p : String × Node)
    (h : p ∈ setNode nodes key v) : p ∈ nodes ∨ p = (key, v) := by
  induction nodes with
  | nil => simpa [setNode] using h
  | cons q rest ih =>
      by_cases hq : q.1 = key
      · simp only [setNode, hq, if_pos rfl] at h
        rcases List.mem_cons.mp h with h | h
        · right; exact h
        · left; exact List.mem_cons_of_mem _ h
      · simp only [setNode, if_neg hq] at h
        rcases List.mem_cons.mp h with h | h
        · left; exact h ▸ List.mem_cons_self _ _
        · rcases ih h with h | h
          · left; exact List.mem_cons_of_mem _ h
          · right; exact h

theorem edgesOf_setNode_self (nodes : Nodes) (key : String) (v : Node) :
    edgesOf (setNode nodes key v) key = v.edges := by
  simp [edgesOf, findNode_setNode_self]

theorem edgesOf_setNode_ne (nodes : Nodes) (key k2 : String) (v : Node)
    (h : key ≠ k2) : edgesOf (setNode nodes key v) k2 = edgesOf nodes k2 := by
  simp [edgesOf, findNode_setNode_ne _ _ _ _ h]

/-- C6: for an item A with exactly one crafting recipe requiring quantity 2
of material B at workshop Workbench, node A carries the expected craft_from
edge to B, node B carries the corresponding craft_to edge back to A, and B
exists only as a stub item node with no descriptive attributes. -/
theorem simple_craft_scenario :
    edgeA6 ∈ edgesOf (build_relation_graph [itemA6] none) "A" ∧
    edgeB6 ∈ edgesOf (build_relation_graph [itemA6] none) "B" ∧
    findNode (build_relation_graph [itemA6] none) "B" =
      some { name := "B", node_type := "item", wiki_url := none,
             source_url := none, infobox := none, image_urls := none,
             edges := [edgeB6] } := by
  decide

/-- C1 counterexample: with two trader records sharing the name T, the
second assignment wipes the trader edges of the first, so the sold_by edge
on node I has no inverse in the output graph. -/
theorem closure_cex :
    trT1.name = trT2.name ∧
    soldByIT ∈ edgesOf (build_relation_graph [] (some [trT1, trT2])) "I" ∧
    ¬ hasInverse (build_relation_graph [] (some [trT1, trT2])) "I" soldByIT := by
  decide

/-- C2 counterexample: two trader records named X are processed in order;
the node under X carries the wiki url of the second record, not the first,
because a trader assignment overwrites the existing node. -/
theorem first_writer_cex :
    trX1.name = trX2.name ∧
    truthyOpt trX1.wiki_url = some "uA" ∧
    (findNode (build_relation_graph [] (some [trX1, trX2])) "X").map Node.wiki_url =
      some (some "uB") := by
  decide

/-- C3 counterexample: an item record whose only upgrade definition is
missing its input level still makes the upgrade synthesizer emit edges. -/
theorem upgrade_skip_cex :
    (∀ u ∈ itemC3.upgrades.getD [], u.input_level = none) ∧
    process_upgrades itemC3 "A" ≠ [] := by
  decide

/-- C4 counterexample: the resolver table has no entry for trader or
sold_by, and the sold_by edge already exists before the resolver pass runs,
which therefore buffers no reverse edge at all for the trader graph. -/
theorem resolver_trader_cex :
    reverse_of "trader" = none ∧ reverse_of "sold_by" = none ∧
    soldByIT ∈ edgesOf n2C4 "I" ∧ reverse_pairs n2C4 = [] := by
  decide

/-! Lemmas about create_edge and the truthiness helpers. -/

theorem truthyOpt_ne_empty (o : Option String) : truthyOpt o ≠ some "" := by
  rcases o with _ | s
  · simp [truthyOpt]
  · by_cases h : s = "" <;> simp [truthyOpt, h]

theorem truthyOpt_eq_self (o : Option String) (h : o ≠ some "") :
    truthyOpt o = o := by
  rcases o with _ | s
  · rfl
  · by_cases hs : s = ""
    · exact absurd (hs ▸ rfl) h
    · simp [truthyOpt, hs]

theorem truthyOpt_idem (o : Option String) :
    truthyOpt (truthyOpt o) = truthyOpt o :=
  truthyOpt_eq_self _ (truthyOpt_ne_empty o)

@[simp] theorem create_edge_name (n d r : String) (q : Option JVal)
    (dep : Option (List Tag)) (il ol : Option String) :
    (create_edge n d r q dep il ol).name = n := rfl

@[simp] theorem create_edge_direction (n d r : String) (q : Option JVal)
    (dep : Option (List Tag)) (il ol : Option String) :
    (create_edge n d r q dep il ol).direction = d := rfl

@[simp] theorem create_edge_relation (n d r : String) (q : Option JVal)
    (dep : Option (List Tag)) (il ol : Option String) :
    (create_edge n d r q dep il ol).relation = r := rfl

@[simp] theorem create_edge_quantity (n d r : String) (q : Option JVal)
    (dep : Option (List Tag)) (il ol : Option String) :
    (create_edge n d r q dep il ol).quantity = q := rfl

@[simp] theorem create_edge_input_level (n d r : String) (q : Option JVal)
    (dep : Option (List Tag)) (il ol : Option String) :
    (create_edge n d r q dep il ol).input_level = truthyOpt il := rfl

@[simp] theorem create_edge_output_level (n d r : String) (q : Option JVal)
    (dep : Option (List Tag)) (il ol : Option String) :
    (create_edge n d r q dep il ol).output_level = truthyOpt ol := rfl

theorem create_edge_dependency (n d r : String) (q : Option JVal)
    (dep : Option (List Tag)) (il ol : Option String) (h : dep ≠ some []) :
    (create_edge n d r q dep il ol).dependency = dep := by
  rcases dep with _ | l
  · rfl
  · rcases l with _ | ⟨t, ts⟩
    · exact absurd rfl h
    · rfl

theorem create_edge_dependency_ne (n d r : String) (q : Option JVal)
    (dep : Option (List Tag)) (il ol : Option String) :
    (create_edge n d r q dep il ol).dependency ≠ some [] := by
  rcases dep with _ | l
  · simp [create_edge]
  · rcases l with _ | ⟨t, ts⟩ <;> simp [create_edge]

theorem create_edge_norm (n d r : String) (q : Option JVal)
    (dep : Option (List Tag)) (il ol : Option String) :
    norm_edge (create_edge n d r q dep il ol) :=
  ⟨by simpa using truthyOpt_ne_empty il,
   by simpa using truthyOpt_ne_empty ol,
   create_edge_dependency_ne n d r q dep il ol⟩

/-- Membership in the shared material loop of the synthesizers. -/
theorem material_loop_mem {mats : List Material} {direction relation : String}
    {dependency : Option (List Tag)} {il ol : Option String} {e : Edge}
    (he : e ∈ mats.filterMap (fun material =>
      (truthyOpt material.item).map (fun material_name =>
        create_edge material_name direction relation material.quantity
          dependency il ol))) :
    ∃ material ∈ mats, ∃ material_name,
      truthyOpt material.item = some material_name ∧
      e = create_edge material_name direction relation material.quantity
        dependency il ol := by
  rcases List.mem_filterMap.mp he with ⟨m, hm, hsome⟩
  rcases Option.map_eq_some'.mp hsome with ⟨nm, hnm, he'⟩
  exact ⟨m, hm, nm, hnm, he'.symm⟩

/-- C3 amended: for an upgrade definition missing its input level or its
output level, the synthesizer emits no self-referencing upgrade_to edge for
it; the material upgrade_from edges of its recipe are still emitted. -/
theorem upgrade_skip_amended (item_name : String) (u : UpgradeDef)
    (h : u.input_level = none ∨ u.output_level = none) :
    ∀ e ∈ process_one_upgrade item_name u,
      e.relation = "upgrade_from" ∧ e.direction = "in" := by
  intro e he
  have hlv : truthyOpt u.input_level = none ∨ truthyOpt u.output_level = none := by
    rcases h with h | h
    · exact Or.inl (by rw [h]; rfl)
    · exact Or.inr (by rw [h]; rfl)
  unfold process_one_upgrade at he
  rcases hX : truthyOpt u.input_level with _ | il <;>
    rcases hY : truthyOpt u.output_level with _ | ol <;>
      rw [hX, hY] at he
  case some.some =>
    rw [hX, hY] at hlv
    rcases hlv with hlv | hlv <;> exact absurd hlv (by simp)
  all_goals
    simp only [List.append_nil] at he
    rcases hR : u.recipe with _ | mats <;> rw [hR] at he
  case' none.none.none => exact absurd he (by simp)
  case' none.some.none => exact absurd he (by simp)
  case' some.none.none => exact absurd he (by simp)
  all_goals
    rcases material_loop_mem he with ⟨m, hm, nm, hnm, rfl⟩
    exact ⟨rfl, rfl⟩

/-! Lemmas about ensureNode and appendEdge. -/

theorem findNode_mem {nodes : Nodes} {key : String} {v : Node}
    (h : findNode nodes key = some v) : (key, v) ∈ nodes := by
  induction nodes with
  | nil => simp [findNode] at h
  | cons p rest ih =>
      by_cases hp : p.1 = key
      · subst hp
        simp [findNode] at h
        subst h
        rw [Prod.mk.eta]
        exact List.mem_cons_self _ _
      · simp only [findNode, if_neg hp] at h
        exact List.mem_cons_of_mem _ (ih h)

theorem mem_findNode {nodes : Nodes} {key : String} {v : Node}
    (hnd : NodupKeys nodes) (h : (key, v) ∈ nodes) : findNode nodes key = some v := by
  induction nodes with
  | nil => simp at h
  | cons p rest ih =>
      rw [NodupKeys, List.map_cons, List.nodup_cons] at hnd
      rcases List.mem_cons.mp h with h | h
      · subst h
        simp [findNode]
      · have hk : p.1 ≠ key := by
          intro hk
          exact hnd.1 (by rw [hk]; exact List.mem_map.mpr ⟨(key, v), h, rfl⟩)
        simp only [findNode, if_neg hk]
        exact ih hnd.2 h

theorem keys_setNode (nodes : Nodes) (key : String) (v : Node) :
    (setNode nodes key v).map Prod.fst =
      if key ∈ nodes.map Prod.fst then nodes.map Prod.fst
      else nodes.map Prod.fst ++ [key] := by
  induction nodes with
  | nil => simp [setNode]
  | cons p rest ih =>
      by_cases hp : p.1 = key
      · simp [setNode, hp]
      · have : key ∈ p.1 :: rest.map Prod.fst ↔ key ∈ rest.map Prod.fst := by
          constructor
          · intro h
            rcases List.mem_cons.mp h with h | h
            · exact absurd h.symm hp
            · exact h
          · exact fun h => List.mem_cons_of_mem _ h
        by_cases hk : key ∈ rest.map Prod.fst <;>
          simp [setNode, hp, ih, hk, this]

theorem nodupKeys_setNode (nodes : Nodes) (key : String) (v : Node)
    (hnd : NodupKeys nodes) : NodupKeys (setNode nodes key v) := by
  rw [NodupKeys, keys_setNode]
  by_cases hk : key ∈ nodes.map Prod.fst
  · simpa [hk] using hnd
  · rw [if_neg hk]
    refine List.Nodup.append hnd (List.nodup_singleton _) ?_
    intro a ha hmem
    rw [List.mem_singleton] at hmem
    subst hmem
    exact hk ha

theorem ensureNode_eq_of_isSome {nodes : Nodes} {key : String}
    (h : (findNode nodes key).isSome) : ensureNode nodes key = nodes := by
  unfold ensureNode
  rw [if_pos h]

theorem findNode_ensureNode_isSome (nodes : Nodes) (key : String) :
    (findNode (ensureNode nodes key) key).isSome := by
  unfold ensureNode
  by_cases h : (findNode nodes key).isSome
  · rw [if_pos h]; exact h
  · rw [if_neg h, findNode_setNode_self]; rfl

theorem findNode_ensureNode_ne (nodes : Nodes) (key k2 : String) (h : key ≠ k2) :
    findNode (ensureNode nodes key) k2 = findNode nodes k2 := by
  unfold ensureNode
  by_cases hs : (findNode nodes key).isSome
  · rw [if_pos hs]
  · rw [if_neg hs, findNode_setNode_ne _ _ _ _ h]

theorem edgesOf_ensureNode (nodes : Nodes) (key k2 : String) :
    edgesOf (ensureNode nodes key) k2 = edgesOf nodes k2 := by
  by_cases hk : key = k2
  · subst hk
    unfold ensureNode
    by_cases hs : (findNode nodes key).isSome
    · rw [if_pos hs]
    · rw [if_neg hs]
      have h0 : edgesOf nodes key = [] := by
        unfold edgesOf
        rcases hf : findNode nodes key with _ | nd
        · rfl
        · rw [hf] at hs; simp at hs
      rw [h0]
      unfold edgesOf
      rw [findNode_setNode_self]
      rfl
  · unfold edgesOf
    rw [findNode_ensureNode_ne _ _ _ hk]

theorem appendEdge_eq_of_none {nodes : Nodes} {key : String} {e : Edge}
    (h : findNode nodes key = none) : appendEdge nodes key e = nodes := by
  unfold appendEdge
  rw [h]

theorem edgesOf_appendEdge_self {nodes : Nodes} {key : String} {e : Edge}
    (h : (findNode nodes key).isSome) :
    edgesOf (appendEdge nodes key e) key = edgesOf nodes key ++ [e] := by
  unfold appendEdge
  rcases hf : findNode nodes key with _ | node
  · rw [hf] at h; simp at h
  · show edgesOf (setNode nodes key { node with edges := node.edges ++ [e] }) key = _
    rw [edgesOf_setNode_self]
    have h2 : edgesOf nodes key = node.edges := by unfold edgesOf; rw [hf]
    rw [h2]

theorem edgesOf_appendEdge_ne (nodes : Nodes) (key k2 : String) (e : Edge)
    (h : key ≠ k2) : edgesOf (appendEdge nodes key e) k2 = edgesOf nodes k2 := by
  unfold appendEdge
  rcases hf : findNode nodes key with _ | node
  · rfl
  · unfold edgesOf
    rw [findNode_setNode_ne _ _ _ _ h]

theorem findNode_appendEdge_isSome (nodes : Nodes) (key k2 : String) (e : Edge) :
    (findNode (appendEdge nodes key e) k2).isSome = (findNode nodes k2).isSome := by
  unfold appendEdge
  rcases hf : findNode nodes key with _ | node
  · rfl
  · by_cases hk : key = k2
    · subst hk
      rw [findNode_setNode_self, hf]
      rfl
    · rw [findNode_setNode_ne _ _ _ _ hk]

theorem growsTo_refl (nodes : Nodes) : GrowsTo nodes nodes := fun _ _ h => h

theorem growsTo_trans {g1 g2 g3 : Nodes} (h1 : GrowsTo g1 g2) (h2 : GrowsTo g2 g3) :
    GrowsTo g1 g3 := fun k e h => h2 k e (h1 k e h)

theorem growsTo_ensureNode (nodes : Nodes) (key : String) :
    GrowsTo nodes (ensureNode nodes key) := by
  intro k e h
  rw [edgesOf_ensureNode]
  exact h

theorem growsTo_appendEdge (nodes : Nodes) (key : String) (e : Edge) :
    GrowsTo nodes (appendEdge nodes key e) := by
  intro k2 e2 h2
  by_cases hk : key = k2
  · subst hk
    by_cases hs : (findNode nodes key).isSome
    · rw [edgesOf_appendEdge_self hs]
      exact List.mem_append_left _ h2
    · rw [appendEdge_eq_of_none (Option.not_isSome_iff_eq_none.mp hs)]
      exact h2
  · rw [edgesOf_appendEdge_ne _ _ _ _ hk]
    exact h2

theorem mem_edgesOf_appendEdge (nodes : Nodes) (key : String) (e : Edge)
    (h : (findNode nodes key).isSome) :
    e ∈ edgesOf (appendEdge nodes key e) key := by
  rw [edgesOf_appendEdge_self h]
  exact List.mem_append_right _ (List.mem_singleton_self _)

theorem edgesOf_apply_reverse_step_mem (nodes : Nodes) (pr : String × Edge) :
    pr.2 ∈ edgesOf (apply_reverse_step nodes pr) pr.1 := by
  unfold apply_reverse_step
  exact mem_edgesOf_appendEdge _ _ _ (findNode_ensureNode_isSome nodes pr.1)

theorem growsTo_apply_reverse_step (nodes : Nodes) (pr : String × Edge) :
    GrowsTo nodes (apply_reverse_step nodes pr) := by
  unfold apply_reverse_step
  exact growsTo_trans (growsTo_ensureNode _ _) (growsTo_appendEdge _ _ _)

/-- C3 witness. -/
theorem upgrade_skip_amended_witness :
    edgeW3.relation = "upgrade_from" ∧ edgeW3.direction = "in" :=
  upgrade_skip_amended "A" upW3 (Or.inr rfl) edgeW3 (by decide)

/-- C4 amended: the resolver covers exactly the five craft, upgrade,
repair, recycle and salvage relation pairs and derives nothing from trader
or sold_by edges; the inverse sold_by edge is instead created specially by
the trader pass itself, appended to the listed item the moment the trader
edge is created. -/
theorem resolver_trader_amended :
    (∀ relation p, reverse_of relation = some p →
      relation ∈ ["craft_from", "craft_to", "upgrade_from", "upgrade_to",
        "repair_from", "repair_to", "recycle_to", "recycle_from",
        "salvage_to", "salvage_from"]) ∧
    reverse_of "trader" = none ∧ reverse_of "sold_by" = none ∧
    ∀ (nodes : Nodes) (trader_name item_name : String) (item : ShopItem),
      truthyOpt item.name = some item_name →
      create_edge trader_name "in" "sold_by" (some (JVal.i 1))
          (if shop_dependency item = [] then none else some (shop_dependency item))
          none none
        ∈ edgesOf (processShopItem nodes trader_name item) item_name := by
  refine ⟨?_, by decide, by decide, ?_⟩
  · intro relation p h
    unfold reverse_of at h
    split_ifs at h with h1 h2 h3 h4 h5 h6 h7 h8 h9 h10
    · rw [h1]; decide
    · rw [h2]; decide
    · rw [h3]; decide
    · rw [h4]; decide
    · rw [h5]; decide
    · rw [h6]; decide
    · rw [h7]; decide
    · rw [h8]; decide
    · rw [h9]; decide
    · rw [h10]; decide
  · intro nodes trader_name item_name item h
    unfold processShopItem
    rw [h]
    exact mem_edgesOf_appendEdge _ _ _ (findNode_ensureNode_isSome _ _)

/-- C4 witness. -/
theorem resolver_trader_amended_witness :
    create_edge "T" "in" "sold_by" (some (JVal.i 1))
        (if shop_dependency shopW4 = [] then none else some (shop_dependency shopW4))
        none none
      ∈ edgesOf (processShopItem tableW4 "T" shopW4) "I" :=
  resolver_trader_amended.2.2.2 tableW4 "T" "I" shopW4 (by decide)

/-! Lemmas for the silent-drop claims: an entry whose name is not truthy
contributes nothing, and the rest of the record is processed unchanged. -/

theorem filterMap_drop_mid {α β : Type} (f : α → Option β) (l1 l2 : List α)
    (a : α) (h : f a = none) :
    (l1 ++ a :: l2).filterMap f = (l1 ++ l2).filterMap f := by
  simp [List.filterMap_append, List.filterMap_cons, h]

theorem process_crafting_drop (d : ItemRecord) (n : String)
    (cs1 cs2 : List CraftRecipe) (c : CraftRecipe) (ms1 ms2 : List Material)
    (m : Material) (hm : truthyOpt m.item = none) :
    process_crafting
        { d with crafting := some (cs1 ++ { c with recipe := some (ms1 ++ m :: ms2) } :: cs2) } n =
      process_crafting
        { d with crafting := some (cs1 ++ { c with recipe := some (ms1 ++ ms2) } :: cs2) } n := by
  unfold process_crafting
  simp only [List.flatMap_append, List.flatMap_cons]
  congr 2
  exact filterMap_drop_mid _ _ _ _ (by rw [hm]; rfl)

theorem process_one_upgrade_drop (n : String) (u : UpgradeDef)
    (ms1 ms2 : List Material) (m : Material) (hm : truthyOpt m.item = none) :
    process_one_upgrade n { u with recipe := some (ms1 ++ m :: ms2) } =
      process_one_upgrade n { u with recipe := some (ms1 ++ ms2) } := by
  unfold process_one_upgrade
  dsimp only
  congr 1
  exact filterMap_drop_mid _ _ _ _ (by rw [hm]; rfl)

theorem process_upgrades_drop (d : ItemRecord) (n : String)
    (us1 us2 : List UpgradeDef) (u : UpgradeDef) (ms1 ms2 : List Material)
    (m : Material) (hm : truthyOpt m.item = none) :
    process_upgrades
        { d with upgrades := some (us1 ++ { u with recipe := some (ms1 ++ m :: ms2) } :: us2) } n =
      process_upgrades
        { d with upgrades := some (us1 ++ { u with recipe := some (ms1 ++ ms2) } :: us2) } n := by
  unfold process_upgrades
  simp only [List.flatMap_append, List.flatMap_cons]
  rw [process_one_upgrade_drop n u ms1 ms2 m hm]

theorem process_repairs_drop (d : ItemRecord) (n : String)
    (rs1 rs2 : List RepairDef) (r : RepairDef) (ms1 ms2 : List Material)
    (m : Material) (hm : truthyOpt m.item = none) :
    process_repairs
        { d with repairs := some (rs1 ++ { r with recipe := some (ms1 ++ m :: ms2) } :: rs2) } n =
      process_repairs
        { d with repairs := some (rs1 ++ { r with recipe := some (ms1 ++ ms2) } :: rs2) } n := by
  unfold process_repairs
  simp only [List.flatMap_append, List.flatMap_cons]
  congr 2
  exact filterMap_drop_mid _ _ _ _ (by rw [hm]; rfl)

theorem process_recycling_drop (d : ItemRecord) (n : String) (rb : RecyclingBlock)
    (bs1 bs2 : List BreakdownDef) (b : BreakdownDef) (ms1 ms2 : List Material)
    (m : Material) (hm : truthyOpt m.item = none) :
    process_recycling
        { d with recycling := some ({ rb with recycling := some (bs1 ++ { b with materials := some (ms1 ++ m :: ms2) } :: bs2) }) } n =
      process_recycling
        { d with recycling := some ({ rb with recycling := some (bs1 ++ { b with materials := some (ms1 ++ ms2) } :: bs2) }) } n := by
  unfold process_recycling
  simp only [List.flatMap_append, List.flatMap_cons]
  congr 3
  exact filterMap_drop_mid _ _ _ _ (by rw [hm]; rfl)

theorem process_salvaging_drop (d : ItemRecord) (n : String) (rb : RecyclingBlock)
    (bs1 bs2 : List BreakdownDef) (b : BreakdownDef) (ms1 ms2 : List Material)
    (m : Material) (hm : truthyOpt m.item = none) :
    process_recycling
        { d with recycling := some ({ rb with salvaging := some (bs1 ++ { b with materials := some (ms1 ++ m :: ms2) } :: bs2) }) } n =
      process_recycling
        { d with recycling := some ({ rb with salvaging := some (bs1 ++ { b with materials := some (ms1 ++ ms2) } :: bs2) }) } n := by
  unfold process_recycling
  simp only [List.flatMap_append, List.flatMap_cons]
  congr 3
  exact filterMap_drop_mid _ _ _ _ (by rw [hm]; rfl)

theorem processShopItem_skip (nodes : Nodes) (trader_name : String)
    (it : ShopItem) (h : truthyOpt it.name = none) :
    processShopItem nodes trader_name it = nodes := by
  unfold processShopItem
  rw [h]

theorem processTrader_drop (nodes : Nodes) (t : TraderRecord)
    (s1 s2 : List ShopItem) (it : ShopItem) (h : truthyOpt it.name = none) :
    processTrader nodes { t with shop := some (s1 ++ it :: s2) } =
      processTrader nodes { t with shop := some (s1 ++ s2) } := by
  unfold processTrader
  rcases hk : truthyOpt t.name with _ | tn
  · rfl
  · simp only [Option.getD_some, List.foldl_append, List.foldl_cons]
    rw [processShopItem_skip _ _ _ h]

theorem foldl_drop_mid {α β : Type} (f : β → α → β) (l1 l2 : List α) (a : α)
    (h : ∀ b, f b a = b) (init : β) :
    (l1 ++ a :: l2).foldl f init = (l1 ++ l2).foldl f init := by
  rw [List.foldl_append, List.foldl_cons, h, ← List.foldl_append]

theorem pass1Step_skip (nodes : Nodes) (r : ItemRecord)
    (h : get_base_item_name r = "") : pass1Step nodes r = nodes := by
  simp [pass1Step, h]

theorem pass2Step_skip (nodes : Nodes) (r : ItemRecord)
    (h : get_base_item_name r = "") : pass2Step nodes r = nodes := by
  simp [pass2Step, h]

theorem processTrader_skip (nodes : Nodes) (t : TraderRecord)
    (h : truthyOpt t.name = none) : processTrader nodes t = nodes := by
  unfold processTrader
  rw [h]

theorem build_skip_item (items1 items2 : List ItemRecord) (r : ItemRecord)
    (traders : Option (List TraderRecord)) (h : get_base_item_name r = "") :
    build_relation_graph (items1 ++ r :: items2) traders =
      build_relation_graph (items1 ++ items2) traders := by
  unfold build_relation_graph assemble
  rw [foldl_drop_mid pass1Step items1 items2 r (fun b => pass1Step_skip b r h),
      foldl_drop_mid pass2Step items1 items2 r (fun b => pass2Step_skip b r h)]

theorem process_traders_drop_rec (nodes : Nodes) (ts1 ts2 : List TraderRecord)
    (t : TraderRecord) (h : truthyOpt t.name = none) :
    process_traders nodes (some (ts1 ++ t :: ts2)) =
      process_traders nodes (some (ts1 ++ ts2)) :=
  foldl_drop_mid processTrader ts1 ts2 t (fun b => processTrader_skip b t h) nodes

theorem build_skip_trader (items : List ItemRecord) (ts1 ts2 : List TraderRecord)
    (t : TraderRecord) (h : truthyOpt t.name = none) :
    build_relation_graph items (some (ts1 ++ t :: ts2)) =
      build_relation_graph items (some (ts1 ++ ts2)) := by
  simp only [build_relation_graph]
  rw [process_traders_drop_rec (assemble items) ts1 ts2 t h]

/-- C7: a material entry lacking its item name field contributes no edge in
any of the five synthesizers, a shop entry lacking its name field
contributes no edge in the trader pass, and in each case the rest of the
record is processed exactly as without the entry; being equalities of total
functions, no error can arise. -/
theorem missing_name_drop :
    (∀ (d : ItemRecord) (n : String) (cs1 cs2 : List CraftRecipe) (c : CraftRecipe)
        (ms1 ms2 : List Material) (m : Material), m.item = none →
      process_crafting
          { d with crafting := some (cs1 ++ { c with recipe := some (ms1 ++ m :: ms2) } :: cs2) } n =
        process_crafting
          { d with crafting := some (cs1 ++ { c with recipe := some (ms1 ++ ms2) } :: cs2) } n) ∧
    (∀ (d : ItemRecord) (n : String) (us1 us2 : List UpgradeDef) (u : UpgradeDef)
        (ms1 ms2 : List Material) (m : Material), m.item = none →
      process_upgrades
          { d with upgrades := some (us1 ++ { u with recipe := some (ms1 ++ m :: ms2) } :: us2) } n =
        process_upgrades
          { d with upgrades := some (us1 ++ { u with recipe := some (ms1 ++ ms2) } :: us2) } n) ∧
    (∀ (d : ItemRecord) (n : String) (rs1 rs2 : List RepairDef) (r : RepairDef)
        (ms1 ms2 : List Material) (m : Material), m.item = none →
      process_repairs
          { d with repairs := some (rs1 ++ { r with recipe := some (ms1 ++ m :: ms2) } :: rs2) } n =
        process_repairs
          { d with repairs := some (rs1 ++ { r with recipe := some (ms1 ++ ms2) } :: rs2) } n) ∧
    (∀ (d : ItemRecord) (n : String) (rb : RecyclingBlock) (bs1 bs2 : List BreakdownDef)
        (b : BreakdownDef) (ms1 ms2 : List Material) (m : Material), m.item = none →
      process_recycling
          { d with recycling := some ({ rb with recycling := some (bs1 ++ { b with materials := some (ms1 ++ m :: ms2) } :: bs2) }) } n =
        process_recycling
          { d with recycling := some ({ rb with recycling := some (bs1 ++ { b with materials := some (ms1 ++ ms2) } :: bs2) }) } n) ∧
    (∀ (d : ItemRecord) (n : String) (rb : RecyclingBlock) (bs1 bs2 : List BreakdownDef)
        (b : BreakdownDef) (ms1 ms2 : List Material) (m : Material), m.item = none →
      process_recycling
          { d with recycling := some ({ rb with salvaging := some (bs1 ++ { b with materials := some (ms1 ++ m :: ms2) } :: bs2) }) } n =
        process_recycling
          { d with recycling := some ({ rb with salvaging := some (bs1 ++ { b with materials := some (ms1 ++ ms2) } :: bs2) }) } n) ∧
    (∀ (nodes : Nodes) (t : TraderRecord) (s1 s2 : List ShopItem) (it : ShopItem),
        it.name = none →
      processTrader nodes { t with shop := some (s1 ++ it :: s2) } =
        processTrader nodes { t with shop := some (s1 ++ s2) }) := by
  refine ⟨?_, ?_, ?_, ?_, ?_, ?_⟩
  · intro d n cs1 cs2 c ms1 ms2 m hm
    exact process_crafting_drop d n cs1 cs2 c ms1 ms2 m (by rw [hm]; rfl)
  · intro d n us1 us2 u ms1 ms2 m hm
    exact process_upgrades_drop d n us1 us2 u ms1 ms2 m (by rw [hm]; rfl)
  · intro d n rs1 rs2 r ms1 ms2 m hm
    exact process_repairs_drop d n rs1 rs2 r ms1 ms2 m (by rw [hm]; rfl)
  · intro d n rb bs1 bs2 b ms1 ms2 m hm
    exact process_recycling_drop d n rb bs1 bs2 b ms1 ms2 m (by rw [hm]; rfl)
  · intro d n rb bs1 bs2 b ms1 ms2 m hm
    exact process_salvaging_drop d n rb bs1 bs2 b ms1 ms2 m (by rw [hm]; rfl)
  · intro nodes t s1 s2 it hit
    exact processTrader_drop nodes t s1 s2 it (by rw [hit]; rfl)

/-- C7 witness. -/
theorem missing_name_drop_witness :
    process_crafting
        { ({} : ItemRecord) with crafting := some ([] ++ { ({} : CraftRecipe) with recipe := some ([matB] ++ matNoName :: []) } :: []) } "A" =
      process_crafting
        { ({} : ItemRecord) with crafting := some ([] ++ { ({} : CraftRecipe) with recipe := some ([matB] ++ []) } :: []) } "A" :=
  missing_name_drop.1 {} "A" [] [] {} [matB] [] matNoName rfl

/-- C10: empty-string names behave like missing names: an item record whose
name is the empty string contributes nothing to the build, a trader record
whose name is the empty string contributes nothing to the build, and a
material entry whose item field is the empty string contributes no edge in
any synthesizer, nor does a shop entry named by the empty string; the build
is a total function, so it still succeeds in all cases. -/
theorem empty_name_drop :
    (∀ (items1 items2 : List ItemRecord) (r : ItemRecord)
        (traders : Option (List TraderRecord)), r.name = some "" →
      build_relation_graph (items1 ++ r :: items2) traders =
        build_relation_graph (items1 ++ items2) traders) ∧
    (∀ (items : List ItemRecord) (ts1 ts2 : List TraderRecord) (t : TraderRecord),
        t.name = some "" →
      build_relation_graph items (some (ts1 ++ t :: ts2)) =
        build_relation_graph items (some (ts1 ++ ts2))) ∧
    (∀ (d : ItemRecord) (n : String) (cs1 cs2 : List CraftRecipe) (c : CraftRecipe)
        (ms1 ms2 : List Material) (m : Material), m.item = some "" →
      process_crafting
          { d with crafting := some (cs1 ++ { c with recipe := some (ms1 ++ m :: ms2) } :: cs2) } n =
        process_crafting
          { d with crafting := some (cs1 ++ { c with recipe := some (ms1 ++ ms2) } :: cs2) } n) ∧
    (∀ (d : ItemRecord) (n : String) (us1 us2 : List UpgradeDef) (u : UpgradeDef)
        (ms1 ms2 : List Material) (m : Material), m.item = some "" →
      process_upgrades
          { d with upgrades := some (us1 ++ { u with recipe := some (ms1 ++ m :: ms2) } :: us2) } n =
        process_upgrades
          { d with upgrades := some (us1 ++ { u with recipe := some (ms1 ++ ms2) } :: us2) } n) ∧
    (∀ (d : ItemRecord) (n : String) (rs1 rs2 : List RepairDef) (r : RepairDef)
        (ms1 ms2 : List Material) (m : Material), m.item = some "" →
      process_repairs
          { d with repairs := some (rs1 ++ { r with recipe := some (ms1 ++ m :: ms2) } :: rs2) } n =
        process_repairs
          { d with repairs := some (rs1 ++ { r with recipe := some (ms1 ++ ms2) } :: rs2) } n) ∧
    (∀ (nodes : Nodes) (t : TraderRecord) (s1 s2 : List ShopItem) (it : ShopItem),
        it.name = some "" →
      processTrader nodes { t with shop := some (s1 ++ it :: s2) } =
        processTrader nodes { t with shop := some (s1 ++ s2) }) := by
  refine ⟨?_, ?_, ?_, ?_, ?_, ?_⟩
  · intro items1 items2 r traders hr
    exact build_skip_item items1 items2 r traders (by rw [get_base_item_name, hr]; rfl)
  · intro items ts1 ts2 t ht
    exact build_skip_trader items ts1 ts2 t (by rw [ht]; decide)
  · intro d n cs1 cs2 c ms1 ms2 m hm
    exact process_crafting_drop d n cs1 cs2 c ms1 ms2 m (by rw [hm]; decide)
  · intro d n us1 us2 u ms1 ms2 m hm
    exact process_upgrades_drop d n us1 us2 u ms1 ms2 m (by rw [hm]; decide)
  · intro d n rs1 rs2 r ms1 ms2 m hm
    exact process_repairs_drop d n rs1 rs2 r ms1 ms2 m (by rw [hm]; decide)
  · intro nodes t s1 s2 it hit
    exact processTrader_drop nodes t s1 s2 it (by rw [hit]; decide)

/-- C10 witness. -/
theorem empty_name_drop_witness :
    build_relation_graph ([] ++ itemEmptyName :: []) none =
      build_relation_graph ([] ++ []) none :=
  empty_name_drop.1 [] [] itemEmptyName none rfl

/-! Shape of the edges each synthesizer emits. -/

theorem mem_process_crafting {d : ItemRecord} {n : String} {e : Edge}
    (he : e ∈ process_crafting d n) :
    e.relation = "craft_from" ∧ e.direction = "in" ∧ norm_edge e := by
  unfold process_crafting at he
  rcases hC : d.crafting with _ | recipes
  · rw [hC] at he; simp at he
  · rw [hC] at he
    rcases List.mem_flatMap.mp he with ⟨cr, hcr, hbody⟩
    rcases hR : cr.recipe with _ | mats
    · rw [hR] at hbody; simp at hbody
    · rw [hR] at hbody
      rcases material_loop_mem hbody with ⟨m, hm, nm, hnm, rfl⟩
      exact ⟨rfl, rfl, create_edge_norm _ _ _ _ _ _ _⟩

theorem mem_process_one_upgrade {n : String} {u : UpgradeDef} {e : Edge}
    (he : e ∈ process_one_upgrade n u) :
    ((e.relation = "upgrade_from" ∧ e.direction = "in") ∨
     (e.relation = "upgrade_to" ∧ e.direction = "out")) ∧ norm_edge e := by
  unfold process_one_upgrade at he
  rcases List.mem_append.mp he with hb | hb
  · rcases hR : u.recipe with _ | mats
    · rw [hR] at hb; simp at hb
    · rw [hR] at hb
      rcases material_loop_mem hb with ⟨m, hm, nm, hnm, rfl⟩
      exact ⟨Or.inl ⟨rfl, rfl⟩, create_edge_norm _ _ _ _ _ _ _⟩
  · rcases hX : truthyOpt u.input_level with _ | il <;>
      rcases hY : truthyOpt u.output_level with _ | ol <;>
        rw [hX, hY] at hb
    · simp at hb
    · simp at hb
    · simp at hb
    · rcases List.mem_singleton.mp hb with rfl
      exact ⟨Or.inr ⟨rfl, rfl⟩, create_edge_norm _ _ _ _ _ _ _⟩

theorem mem_process_upgrades {d : ItemRecord} {n : String} {e : Edge}
    (he : e ∈ process_upgrades d n) :
    ((e.relation = "upgrade_from" ∧ e.direction = "in") ∨
     (e.relation = "upgrade_to" ∧ e.direction = "out")) ∧ norm_edge e := by
  unfold process_upgrades at he
  rcases hU : d.upgrades with _ | us
  · rw [hU] at he; simp at he
  · rw [hU] at he
    rcases List.mem_flatMap.mp he with ⟨u, hu, hbody⟩
    exact mem_process_one_upgrade hbody

theorem mem_process_repairs {d : ItemRecord} {n : String} {e : Edge}
    (he : e ∈ process_repairs d n) :
    e.relation = "repair_from" ∧ e.direction = "in" ∧ norm_edge e := by
  unfold process_repairs at he
  rcases hR : d.repairs with _ | rs
  · rw [hR] at he; simp at he
  · rw [hR] at he
    rcases List.mem_flatMap.mp he with ⟨r, hr, hbody⟩
    rcases hRec : r.recipe with _ | mats
    · rw [hRec] at hbody; simp at hbody
    · rw [hRec] at hbody
      rcases material_loop_mem hbody with ⟨m, hm, nm, hnm, rfl⟩
      exact ⟨rfl, rfl, create_edge_norm _ _ _ _ _ _ _⟩

theorem mem_process_recycling {d : ItemRecord} {n : String} {e : Edge}
    (he : e ∈ process_recycling d n) :
    ((e.relation = "recycle_to" ∧ e.direction = "out") ∨
     (e.relation = "salvage_to" ∧ e.direction = "out")) ∧ norm_edge e := by
  unfold process_recycling at he
  rcases hB : d.recycling with _ | rb
  · rw [hB] at he; simp at he
  · rw [hB] at he
    rcases List.mem_append.mp he with hb | hb
    · rcases hRs : rb.recycling with _ | rs
      · rw [hRs] at hb; simp at hb
      · rw [hRs] at hb
        rcases List.mem_flatMap.mp hb with ⟨b, hbm, hbody⟩
        rcases hM : b.materials with _ | mats
        · rw [hM] at hbody; simp at hbody
        · rw [hM] at hbody
          rcases material_loop_mem hbody with ⟨m, hm, nm, hnm, rfl⟩
          exact ⟨Or.inl ⟨rfl, rfl⟩, create_edge_norm _ _ _ _ _ _ _⟩
    · rcases hSs : rb.salvaging with _ | ss
      · rw [hSs] at hb; simp at hb
      · rw [hSs] at hb
        rcases List.mem_flatMap.mp hb with ⟨b, hbm, hbody⟩
        rcases hM : b.materials with _ | mats
        · rw [hM] at hbody; simp at hbody
        · rw [hM] at hbody
          rcases material_loop_mem hbody with ⟨m, hm, nm, hnm, rfl⟩
          exact ⟨Or.inr ⟨rfl, rfl⟩, create_edge_norm _ _ _ _ _ _ _⟩

theorem mem_item_edges {d : ItemRecord} {n : String} {e : Edge}
    (he : e ∈ item_edges d n) : wfA e := by
  unfold item_edges at he
  rcases List.mem_append.mp he with he | he
  case inl =>
    rcases List.mem_append.mp he with he | he
    case inl =>
      rcases List.mem_append.mp he with he | he
      · rcases mem_process_crafting he with ⟨h1, h2, h3⟩
        exact ⟨Or.inl ⟨h1, h2⟩, h3⟩
      · rcases mem_process_upgrades he with ⟨h1, h3⟩
        rcases h1 with ⟨h1, h2⟩ | ⟨h1, h2⟩
        · exact ⟨Or.inr (Or.inl ⟨h1, h2⟩), h3⟩
        · exact ⟨Or.inr (Or.inr (Or.inl ⟨h1, h2⟩)), h3⟩
    case inr =>
      rcases mem_process_repairs he with ⟨h1, h2, h3⟩
      exact ⟨Or.inr (Or.inr (Or.inr (Or.inl ⟨h1, h2⟩))), h3⟩
  case inr =>
    rcases mem_process_recycling he with ⟨h1, h3⟩
    rcases h1 with ⟨h1, h2⟩ | ⟨h1, h2⟩
    · exact ⟨Or.inr (Or.inr (Or.inr (Or.inr (Or.inl ⟨h1, h2⟩)))), h3⟩
    · exact ⟨Or.inr (Or.inr (Or.inr (Or.inr (Or.inr ⟨h1, h2⟩)))), h3⟩

/-! Preservation of edge predicates through the passes. -/

theorem AllE_mono {P Q : Edge → Prop} {nodes : Nodes} (h : ∀ e, P e → Q e)
    (hG : AllE P nodes) : AllE Q nodes :=
  fun p hp e hep => h e (hG p hp e hep)

theorem AllE_nil (P : Edge → Prop) : AllE P [] := by
  intro p hp
  simp at hp

theorem AllE_setNode {P : Edge → Prop} {nodes : Nodes} {key : String} {v : Node}
    (hG : AllE P nodes) (hv : ∀ e ∈ v.edges, P e) : AllE P (setNode nodes key v) := by
  intro p hp e hep
  rcases mem_setNode _ _ _ _ hp with hp | rfl
  · exact hG p hp e hep
  · exact hv e hep

theorem AllE_edgesOf {P : Edge → Prop} {nodes : Nodes} (h : AllE P nodes)
    {k : String} {e : Edge} (he : e ∈ edgesOf nodes k) : P e := by
  unfold edgesOf at he
  rcases hf : findNode nodes k with _ | node
  · rw [hf] at he; simp at he
  · rw [hf] at he
    exact h (k, node) (findNode_mem hf) e he

theorem AllE_foldl {α : Type} {P : Edge → Prop} (step : Nodes → α → Nodes)
    (hstep : ∀ N a, AllE P N → AllE P (step N a)) :
    ∀ (l : List α) (N : Nodes), AllE P N → AllE P (l.foldl step N) := by
  intro l
  induction l with
  | nil => exact fun N h => h
  | cons a rest ih =>
      intro N hN
      rw [List.foldl_cons]
      exact ih _ (hstep N a hN)

theorem AllE_pass1Step {P : Edge → Prop} (N : Nodes) (r : ItemRecord)
    (hN : AllE P N) : AllE P (pass1Step N r) := by
  simp only [pass1Step]
  split_ifs with h1 h2
  · exact hN
  · exact hN
  · refine AllE_setNode hN ?_
    intro e he
    simp [create_node] at he

theorem AllE_pass2Step (N : Nodes) (r : ItemRecord)
    (hN : AllE wfA N) : AllE wfA (pass2Step N r) := by
  simp only [pass2Step]
  split_ifs with h1
  · exact hN
  · rcases hf : findNode N (get_base_item_name r) with _ | node
    · exact hN
    · refine AllE_setNode hN ?_
      intro e he
      rcases List.mem_append.mp he with he | he
      · exact hN _ (findNode_mem hf) e he
      · exact mem_item_edges he

theorem AllE_appendEdge {P : Edge → Prop} {nodes : Nodes} {key : String} {e : Edge}
    (hG : AllE P nodes) (he : P e) : AllE P (appendEdge nodes key e) := by
  unfold appendEdge
  rcases hf : findNode nodes key with _ | node
  · exact hG
  · refine AllE_setNode hG ?_
    intro e2 he2
    rcases List.mem_append.mp he2 with h | h
    · exact hG _ (findNode_mem hf) e2 h
    · rw [List.mem_singleton.mp h]
      exact he

theorem AllE_ensureNode {P : Edge → Prop} {nodes : Nodes} {key : String}
    (hG : AllE P nodes) : AllE P (ensureNode nodes key) := by
  unfold ensureNode
  split_ifs with h1
  · exact hG
  · refine AllE_setNode hG ?_
    intro e he
    simp [create_node] at he

theorem ts_pair_trader_edge (n : String) (q : Option JVal) (dep : Option (List Tag)) :
    ts_pair (create_edge n "out" "trader" q dep none none) :=
  ⟨Or.inl ⟨rfl, rfl⟩, rfl, rfl⟩

theorem ts_pair_sold_by_edge (n : String) (q : Option JVal) (dep : Option (List Tag)) :
    ts_pair (create_edge n "in" "sold_by" q dep none none) :=
  ⟨Or.inr ⟨rfl, rfl⟩, rfl, rfl⟩

theorem AllE_processShopItem (N : Nodes) (tn : String) (it : ShopItem)
    (hN : AllE wfB N) : AllE wfB (processShopItem N tn it) := by
  unfold processShopItem
  rcases hname : truthyOpt it.name with _ | iname
  · exact hN
  · refine AllE_appendEdge (AllE_ensureNode (AllE_appendEdge hN ?_)) ?_
    · exact ⟨Or.inr (ts_pair_trader_edge _ _ _), create_edge_norm _ _ _ _ _ _ _⟩
    · exact ⟨Or.inr (ts_pair_sold_by_edge _ _ _), create_edge_norm _ _ _ _ _ _ _⟩

theorem AllE_processTrader (N : Nodes) (t : TraderRecord)
    (hN : AllE wfB N) : AllE wfB (processTrader N t) := by
  unfold processTrader
  rcases hname : truthyOpt t.name with _ | tn
  · exact hN
  · refine AllE_foldl _ (fun N2 it h => AllE_processShopItem N2 tn it h) _ _ ?_
    refine AllE_setNode hN ?_
    intro e he
    simp [create_node] at he

theorem wfA_wfB {e : Edge} (h : wfA e) : wfB e := ⟨Or.inl h.1, h.2⟩

theorem AllE_assemble (items : List ItemRecord) : AllE wfA (assemble items) := by
  unfold assemble
  refine AllE_foldl pass2Step AllE_pass2Step items _ ?_
  exact AllE_foldl pass1Step (fun N r h => AllE_pass1Step N r h) items [] (AllE_nil _)

theorem AllE_after_traders (items : List ItemRecord)
    (traders : Option (List TraderRecord)) :
    AllE wfB (process_traders (assemble items) traders) := by
  unfold process_traders
  rcases traders with _ | ts
  · exact AllE_mono (fun e => wfA_wfB) (AllE_assemble items)
  · exact AllE_foldl processTrader AllE_processTrader ts _
      (AllE_mono (fun e => wfA_wfB) (AllE_assemble items))

/-! The reverse-edge pass: membership characterizations. -/

theorem mem_reverse_pairs {nodes : Nodes} {t : String} {e2 : Edge}
    (h : (t, e2) ∈ reverse_pairs nodes) :
    ∃ p ∈ nodes, ∃ e ∈ p.2.edges, ∃ rr rd,
      reverse_of e.relation = some (rr, rd) ∧ t = e.name ∧
      e2 = create_edge p.1 rd rr e.quantity e.dependency e.output_level e.input_level := by
  unfold reverse_pairs at h
  rcases List.mem_flatMap.mp h with ⟨p, hp, hbody⟩
  rcases List.mem_filterMap.mp hbody with ⟨e, hee, hsome⟩
  rcases Option.map_eq_some'.mp hsome with ⟨rd, hrd, heq⟩
  rcases rd with ⟨rr, rdir⟩
  have h1 : e.name = t := congrArg Prod.fst heq
  have h2 : create_edge p.1 rdir rr e.quantity e.dependency e.output_level e.input_level = e2 :=
    congrArg Prod.snd heq
  exact ⟨p, hp, e, hee, rr, rdir, hrd, h1.symm, h2.symm⟩

theorem reverse_pairs_of_edge {nodes : Nodes} {p : String × Node} {e : Edge}
    {rr rd : String} (hp : p ∈ nodes) (he : e ∈ p.2.edges)
    (hrd : reverse_of e.relation = some (rr, rd)) :
    (e.name, create_edge p.1 rd rr e.quantity e.dependency e.output_level e.input_level)
      ∈ reverse_pairs nodes := by
  unfold reverse_pairs
  refine List.mem_flatMap.mpr ⟨p, hp, ?_⟩
  refine List.mem_filterMap.mpr ⟨e, he, ?_⟩
  rw [hrd]
  rfl

theorem apply_reverse_step_cover {nodes : Nodes} {pr : String × Edge} {k : String}
    {e : Edge} (h : e ∈ edgesOf (apply_reverse_step nodes pr) k) :
    e ∈ edgesOf nodes k ∨ (k = pr.1 ∧ e = pr.2) := by
  unfold apply_reverse_step at h
  by_cases hk : k = pr.1
  · subst hk
    rw [edgesOf_appendEdge_self (findNode_ensureNode_isSome _ _), edgesOf_ensureNode] at h
    rcases List.mem_append.mp h with h | h
    · exact Or.inl h
    · exact Or.inr ⟨rfl, List.mem_singleton.mp h⟩
  · rw [edgesOf_appendEdge_ne _ _ _ _ (fun hh => hk hh.symm), edgesOf_ensureNode] at h
    exact Or.inl h

theorem apply_reverse_cover (prs : List (String × Edge)) :
    ∀ {nodes : Nodes} {k : String} {e : Edge},
      e ∈ edgesOf (prs.foldl apply_reverse_step nodes) k →
      e ∈ edgesOf nodes k ∨ (k, e) ∈ prs := by
  induction prs with
  | nil => exact fun h => Or.inl h
  | cons pr rest ih =>
      intro nodes k e h
      rw [List.foldl_cons] at h
      rcases ih h with h2 | h2
      · rcases apply_reverse_step_cover h2 with h3 | h3
        · exact Or.inl h3
        · right
          rcases h3 with ⟨rfl, rfl⟩
          exact List.mem_cons_self _ _
      · exact Or.inr (List.mem_cons_of_mem _ h2)

theorem growsTo_foldl_apply (prs : List (String × Edge)) (nodes : Nodes) :
    GrowsTo nodes (prs.foldl apply_reverse_step nodes) := by
  induction prs generalizing nodes with
  | nil => exact growsTo_refl nodes
  | cons pr rest ih =>
      rw [List.foldl_cons]
      exact growsTo_trans (growsTo_apply_reverse_step nodes pr) (ih _)

theorem mem_apply_reverse (prs : List (String × Edge)) :
    ∀ {nodes : Nodes} {pr : String × Edge}, pr ∈ prs →
      pr.2 ∈ edgesOf (prs.foldl apply_reverse_step nodes) pr.1 := by
  induction prs with
  | nil => intro nodes pr h; simp at h
  | cons q rest ih =>
      intro nodes pr h
      rw [List.foldl_cons]
      rcases List.mem_cons.mp h with rfl | h
      · exact growsTo_foldl_apply rest _ pr.1 pr.2 (edgesOf_apply_reverse_step_mem nodes pr)
      · exact ih h

theorem findNode_apply_reverse_isSome (prs : List (String × Edge)) :
    ∀ (nodes : Nodes) (k : String),
      (findNode (prs.foldl apply_reverse_step nodes) k).isSome = true ↔
        ((findNode nodes k).isSome = true ∨ k ∈ prs.map Prod.fst) := by
  induction prs with
  | nil =>
      intro nodes k
      simp
  | cons pr rest ih =>
      intro nodes k
      rw [List.foldl_cons, ih]
      have hstep : (findNode (apply_reverse_step nodes pr) k).isSome = true ↔
          ((findNode nodes k).isSome = true ∨ k = pr.1) := by
        unfold apply_reverse_step
        rw [findNode_appendEdge_isSome]
        unfold ensureNode
        split_ifs with h1
        · constructor
          · exact fun h => Or.inl h
          · intro h
            rcases h with h | rfl
            · exact h
            · exact h1
        · by_cases hk : k = pr.1
          · subst hk
            rw [findNode_setNode_self]
            simp
          · rw [findNode_setNode_ne _ _ _ _ (fun hh => hk hh.symm)]
            constructor
            · exact fun h => Or.inl h
            · intro h
              rcases h with h | h
              · exact h
              · exact absurd h hk
      rw [hstep]
      simp only [List.map_cons, List.mem_cons]
      tauto

theorem reverse_of_pairing {r rr rd : String} (h : reverse_of r = some (rr, rd)) :
    (rr ∈ in_relations → rd = "in") ∧ (rr ∈ out_relations → rd = "out") := by
  unfold reverse_of at h
  split_ifs at h <;>
    · simp only [Option.some.injEq, Prod.mk.injEq] at h
      obtain ⟨rfl, rfl⟩ := h
      decide

theorem reverse_of_not_ts {r rr rd : String} (h : reverse_of r = some (rr, rd)) :
    rr ≠ "trader" ∧ rr ≠ "sold_by" := by
  unfold reverse_of at h
  split_ifs at h <;>
    · simp only [Option.some.injEq, Prod.mk.injEq] at h
      obtain ⟨rfl, rfl⟩ := h
      decide

/-- C5: in the completed output graph, relation and direction agree with
the taxonomy table: the six from-style relations plus sold_by always carry
direction in, and the six to-style relations plus trader always carry
direction out, for forward and derived edges alike. -/
theorem relation_direction_pairing (items : List ItemRecord)
    (traders : Option (List TraderRecord)) :
    ∀ k e, e ∈ edgesOf (build_relation_graph items traders) k →
      (e.relation ∈ in_relations → e.direction = "in") ∧
      (e.relation ∈ out_relations → e.direction = "out") := by
  intro k e he
  have h0 : build_relation_graph items traders =
      (reverse_pairs (process_traders (assemble items) traders)).foldl
        apply_reverse_step (process_traders (assemble items) traders) := rfl
  rw [h0] at he
  rcases apply_reverse_cover _ he with hc | hc
  · have hwf := AllE_edgesOf (AllE_after_traders items traders) hc
    rcases hwf with ⟨hp | hts, hn⟩
    · rcases hp with ⟨h1, h2⟩ | ⟨h1, h2⟩ | ⟨h1, h2⟩ | ⟨h1, h2⟩ | ⟨h1, h2⟩ | ⟨h1, h2⟩ <;>
        rw [h1, h2] <;> decide
    · rcases hts.1 with ⟨h1, h2⟩ | ⟨h1, h2⟩ <;>
        rw [h1, h2] <;> decide
  · rcases mem_reverse_pairs hc with ⟨p, hp, e0, he0, rr, rd, hrd, ht, rfl⟩
    simp only [create_edge_relation, create_edge_direction]
    exact reverse_of_pairing hrd

/-- C5 witness. -/
theorem relation_direction_pairing_witness :
    (edgeA6.relation ∈ in_relations → edgeA6.direction = "in") ∧
    (edgeA6.relation ∈ out_relations → edgeA6.direction = "out") :=
  relation_direction_pairing [itemA6] none "A" edgeA6 (by decide)

/-! Node types without a traders database. -/

theorem nodeType_setNode {nodes : Nodes} {key : String} {v : Node}
    (hG : ∀ p ∈ nodes, p.2.node_type = "item") (hv : v.node_type = "item") :
    ∀ p ∈ setNode nodes key v, p.2.node_type = "item" := by
  intro p hp
  rcases mem_setNode _ _ _ _ hp with hp | rfl
  · exact hG p hp
  · exact hv

theorem nodeType_foldl {α : Type} (step : Nodes → α → Nodes)
    (hstep : ∀ N a, (∀ p ∈ N, p.2.node_type = "item") →
      ∀ p ∈ step N a, p.2.node_type = "item") :
    ∀ (l : List α) (N : Nodes), (∀ p ∈ N, p.2.node_type = "item") →
      ∀ p ∈ l.foldl step N, p.2.node_type = "item" := by
  intro l
  induction l with
  | nil => exact fun N h => h
  | cons a rest ih =>
      intro N hN
      rw [List.foldl_cons]
      exact ih _ (hstep N a hN)

theorem nodeType_pass1Step (N : Nodes) (r : ItemRecord)
    (hN : ∀ p ∈ N, p.2.node_type = "item") :
    ∀ p ∈ pass1Step N r, p.2.node_type = "item" := by
  simp only [pass1Step]
  split_ifs with h1 h2
  · exact hN
  · exact hN
  · exact nodeType_setNode hN rfl

theorem nodeType_pass2Step (N : Nodes) (r : ItemRecord)
    (hN : ∀ p ∈ N, p.2.node_type = "item") :
    ∀ p ∈ pass2Step N r, p.2.node_type = "item" := by
  simp only [pass2Step]
  split_ifs with h1
  · exact hN
  · rcases hf : findNode N (get_base_item_name r) with _ | node
    · exact hN
    · exact nodeType_setNode hN (hN _ (findNode_mem hf))

theorem nodeType_appendEdge (N : Nodes) (key : String) (e : Edge)
    (hN : ∀ p ∈ N, p.2.node_type = "item") :
    ∀ p ∈ appendEdge N key e, p.2.node_type = "item" := by
  unfold appendEdge
  rcases hf : findNode N key with _ | node
  · exact hN
  · exact nodeType_setNode hN (hN _ (findNode_mem hf))

theorem nodeType_ensureNode (N : Nodes) (key : String)
    (hN : ∀ p ∈ N, p.2.node_type = "item") :
    ∀ p ∈ ensureNode N key, p.2.node_type = "item" := by
  unfold ensureNode
  split_ifs with h1
  · exact hN
  · exact nodeType_setNode hN rfl

theorem nodeType_apply_reverse_step (N : Nodes) (pr : String × Edge)
    (hN : ∀ p ∈ N, p.2.node_type = "item") :
    ∀ p ∈ apply_reverse_step N pr, p.2.node_type = "item" := by
  unfold apply_reverse_step
  exact nodeType_appendEdge _ _ _ (nodeType_ensureNode _ _ hN)

theorem nodeType_assemble (items : List ItemRecord) :
    ∀ p ∈ assemble items, p.2.node_type = "item" := by
  unfold assemble
  refine nodeType_foldl pass2Step nodeType_pass2Step items _ ?_
  refine nodeType_foldl pass1Step nodeType_pass1Step items [] ?_
  intro p hp
  simp at hp

/-- C8: building with the traders database absent succeeds and yields a
graph with no trader nodes (every node has node_type item) and no edges of
relation trader or sold_by. -/
theorem trader_absence (items : List ItemRecord) :
    (∀ p ∈ build_relation_graph items none, p.2.node_type = "item") ∧
    (∀ k e, e ∈ edgesOf (build_relation_graph items none) k →
      e.relation ≠ "trader" ∧ e.relation ≠ "sold_by") := by
  have h0 : build_relation_graph items none =
      (reverse_pairs (assemble items)).foldl apply_reverse_step (assemble items) := rfl
  constructor
  · rw [h0]
    exact nodeType_foldl apply_reverse_step nodeType_apply_reverse_step _ _
      (nodeType_assemble items)
  · intro k e he
    rw [h0] at he
    rcases apply_reverse_cover _ he with hc | hc
    · have hwf := AllE_edgesOf (AllE_assemble items) hc
      rcases hwf.1 with ⟨h1, h2⟩ | ⟨h1, h2⟩ | ⟨h1, h2⟩ | ⟨h1, h2⟩ | ⟨h1, h2⟩ | ⟨h1, h2⟩ <;>
        rw [h1] <;> decide
    · rcases mem_reverse_pairs hc with ⟨p, hp, e0, he0, rr, rd, hrd, ht, rfl⟩
      simp only [create_edge_relation]
      exact reverse_of_not_ts hrd

/-- C8 witness. -/
theorem trader_absence_witness :
    edgeA6.relation ≠ "trader" ∧ edgeA6.relation ≠ "sold_by" :=
  (trader_absence [itemA6]).2 "A" edgeA6 (by decide)

/-! Lemmas for the duplication claim: presence of keys and the forward edge
lists of the assembler characterized from the input records. -/

theorem findNode_setNode_isSome (nodes : Nodes) (key k : String) (v : Node) :
    (findNode (setNode nodes key v) k).isSome = true ↔
      ((findNode nodes k).isSome = true ∨ k = key) := by
  by_cases hk : k = key
  · subst hk
    rw [findNode_setNode_self]
    simp
  · rw [findNode_setNode_ne _ _ _ _ (fun h => hk h.symm)]
    constructor
    · exact fun h => Or.inl h
    · intro h
      rcases h with h | h
      · exact h
      · exact absurd h hk

theorem findNode_pass1Step_isSome (N : Nodes) (r : ItemRecord) (k : String) :
    (findNode (pass1Step N r) k).isSome = true ↔
      ((findNode N k).isSome = true ∨ (k ≠ "" ∧ get_base_item_name r = k)) := by
  simp only [pass1Step]
  split_ifs with h1 h2
  · constructor
    · exact fun h => Or.inl h
    · intro h
      rcases h with h | ⟨hk, hbk⟩
      · exact h
      · exact absurd (h1 ▸ hbk) (fun hh => hk hh.symm)
  · constructor
    · exact fun h => Or.inl h
    · intro h
      rcases h with h | ⟨hk, hbk⟩
      · exact h
      · rw [← hbk]; exact h2
  · rw [findNode_setNode_isSome]
    constructor
    · intro h
      rcases h with h | h
      · exact Or.inl h
      · exact Or.inr ⟨fun hh => h1 (h ▸ hh.symm ▸ rfl), h.symm⟩
    · intro h
      rcases h with h | ⟨hk, hbk⟩
      · exact Or.inl h
      · exact Or.inr hbk.symm

theorem findNode_pass1_isSome (items : List ItemRecord) :
    ∀ (N : Nodes) (k : String),
      (findNode (items.foldl pass1Step N) k).isSome = true ↔
        ((findNode N k).isSome = true ∨
          (k ≠ "" ∧ ∃ r ∈ items, get_base_item_name r = k)) := by
  induction items with
  | nil =>
      intro N k
      simp
  | cons r rest ih =>
      intro N k
      rw [List.foldl_cons, ih, findNode_pass1Step_isSome]
      constructor
      · intro h
        rcases h with (h | ⟨hk, hb⟩) | ⟨hk, r2, hr2, hb⟩
        · exact Or.inl h
        · exact Or.inr ⟨hk, r, List.mem_cons_self _ _, hb⟩
        · exact Or.inr ⟨hk, r2, List.mem_cons_of_mem _ hr2, hb⟩
      · intro h
        rcases h with h | ⟨hk, r2, hr2, hb⟩
        · exact Or.inl (Or.inl h)
        · rcases List.mem_cons.mp hr2 with rfl | hr2
          · exact Or.inl (Or.inr ⟨hk, hb⟩)
          · exact Or.inr ⟨hk, r2, hr2, hb⟩

theorem findNode_pass2Step_isSome (N : Nodes) (r : ItemRecord) (k : String) :
    (findNode (pass2Step N r) k).isSome = (findNode N k).isSome := by
  simp only [pass2Step]
  split_ifs with h1
  · rfl
  · rcases hf : findNode N (get_base_item_name r) with _ | node
    · rfl
    · by_cases hk : k = get_base_item_name r
      · subst hk
        rw [findNode_setNode_self, hf]
        rfl
      · rw [findNode_setNode_ne _ _ _ _ (fun h => hk h.symm)]

theorem findNode_pass2_isSome (items : List ItemRecord) :
    ∀ (N : Nodes) (k : String),
      (findNode (items.foldl pass2Step N) k).isSome = (findNode N k).isSome := by
  induction items with
  | nil => exact fun N k => rfl
  | cons r rest ih =>
      intro N k
      rw [List.foldl_cons, ih, findNode_pass2Step_isSome]

theorem findNode_assemble_isSome (items : List ItemRecord) (k : String) :
    (findNode (assemble items) k).isSome = true ↔
      (k ≠ "" ∧ ∃ r ∈ items, get_base_item_name r = k) := by
  unfold assemble
  rw [findNode_pass2_isSome, findNode_pass1_isSome]
  simp [findNode]

theorem edgesOf_pass1Step (N : Nodes) (r : ItemRecord) (k : String) :
    edgesOf (pass1Step N r) k = edgesOf N k := by
  simp only [pass1Step]
  split_ifs with h1 h2
  · rfl
  · rfl
  · by_cases hk : k = get_base_item_name r
    · subst hk
      rw [edgesOf_setNode_self]
      have h0 : edgesOf N (get_base_item_name r) = [] := by
        unfold edgesOf
        rcases hf : findNode N (get_base_item_name r) with _ | nd
        · rfl
        · rw [hf] at h2; simp at h2
      rw [h0]
      rfl
    · rw [edgesOf_setNode_ne _ _ _ _ (fun h => hk h.symm)]

theorem edgesOf_pass1 (items : List ItemRecord) :
    ∀ (N : Nodes) (k : String), edgesOf (items.foldl pass1Step N) k = edgesOf N k := by
  induction items with
  | nil => exact fun N k => rfl
  | cons r rest ih =>
      intro N k
      rw [List.foldl_cons, ih, edgesOf_pass1Step]

theorem edgesOf_pass2Step_ne (N : Nodes) (r : ItemRecord) (k : String)
    (hk : get_base_item_name r ≠ k) : edgesOf (pass2Step N r) k = edgesOf N k := by
  simp only [pass2Step]
  split_ifs with h1
  · rfl
  · rcases hf : findNode N (get_base_item_name r) with _ | node
    · rfl
    · rw [edgesOf_setNode_ne _ _ _ _ hk]

theorem edgesOf_pass2_char (items : List ItemRecord) :
    ∀ (N : Nodes) (n : String), n ≠ "" →
      (∀ r ∈ items, get_base_item_name r = n → (findNode N n).isSome = true) →
      edgesOf (items.foldl pass2Step N) n =
        edgesOf N n ++
          (items.filter (fun r => get_base_item_name r == n)).flatMap
            (fun r => item_edges r n) := by
  induction items with
  | nil =>
      intro N n hn hpres
      simp
  | cons r rest ih =>
      intro N n hn hpres
      rw [List.foldl_cons]
      by_cases hb : get_base_item_name r = n
      · rcases hf : findNode N n with _ | node
        · exact absurd (hpres r (List.mem_cons_self _ _) hb)
            (by rw [hf]; simp)
        · have hstep : edgesOf (pass2Step N r) n = edgesOf N n ++ item_edges r n := by
            simp only [pass2Step, hb]
            rw [if_neg hn, hf]
            show edgesOf (setNode N n { node with edges := node.edges ++ item_edges r n }) n = _
            rw [edgesOf_setNode_self]
            have h2 : edgesOf N n = node.edges := by unfold edgesOf; rw [hf]
            rw [h2]
          have hpres2 : ∀ r2 ∈ rest, get_base_item_name r2 = n →
              (findNode (pass2Step N r) n).isSome = true := by
            intro r2 hr2 hb2
            rw [findNode_pass2Step_isSome, hf]
            rfl
          rw [ih (pass2Step N r) n hn hpres2, hstep]
          have hfil : (r :: rest).filter (fun r2 => get_base_item_name r2 == n) =
              r :: rest.filter (fun r2 => get_base_item_name r2 == n) := by
            rw [List.filter_cons_of_pos]
            simp [hb]
          rw [hfil, List.flatMap_cons, List.append_assoc]
      · have hstep : edgesOf (pass2Step N r) n = edgesOf N n := edgesOf_pass2Step_ne N r n hb
        have hpres2 : ∀ r2 ∈ rest, get_base_item_name r2 = n →
            (findNode (pass2Step N r) n).isSome = true := by
          intro r2 hr2 hb2
          rw [findNode_pass2Step_isSome]
          exact hpres r2 (List.mem_cons_of_mem _ hr2) hb2
        rw [ih (pass2Step N r) n hn hpres2, hstep]
        have hfil : (r :: rest).filter (fun r2 => get_base_item_name r2 == n) =
            rest.filter (fun r2 => get_base_item_name r2 == n) := by
          rw [List.filter_cons_of_neg]
          simp [hb]
        rw [hfil]

theorem edgesOf_assemble_char (items : List ItemRecord) (n : String) (hn : n ≠ "") :
    edgesOf (assemble items) n =
      (items.filter (fun r => get_base_item_name r == n)).flatMap
        (fun r => item_edges r n) := by
  unfold assemble
  have hpres : ∀ r ∈ items, get_base_item_name r = n →
      (findNode (items.foldl pass1Step []) n).isSome = true := by
    intro r hr hb
    rw [findNode_pass1_isSome]
    exact Or.inr ⟨hn, r, hr, hb⟩
  rw [edgesOf_pass2_char items _ n hn hpres, edgesOf_pass1]
  simp [edgesOf, findNode]

theorem edgesOf_assemble_empty (items : List ItemRecord) :
    edgesOf (assemble items) "" = [] := by
  unfold edgesOf
  rcases hf : findNode (assemble items) "" with _ | node
  · rfl
  · have h2 := (findNode_assemble_isSome items "").mp (by rw [hf]; rfl)
    exact absurd rfl h2.1

theorem nodupKeys_pass1Step (N : Nodes) (r : ItemRecord)
    (hnd : NodupKeys N) : NodupKeys (pass1Step N r) := by
  simp only [pass1Step]
  split_ifs with h1 h2
  · exact hnd
  · exact hnd
  · exact nodupKeys_setNode _ _ _ hnd

theorem nodupKeys_pass2Step (N : Nodes) (r : ItemRecord)
    (hnd : NodupKeys N) : NodupKeys (pass2Step N r) := by
  simp only [pass2Step]
  split_ifs with h1
  · exact hnd
  · rcases hf : findNode N (get_base_item_name r) with _ | node
    · exact hnd
    · exact nodupKeys_setNode _ _ _ hnd

theorem nodupKeys_foldl {α : Type} (step : Nodes → α → Nodes)
    (hstep : ∀ N a, NodupKeys N → NodupKeys (step N a)) :
    ∀ (l : List α) (N : Nodes), NodupKeys N → NodupKeys (l.foldl step N) := by
  intro l
  induction l with
  | nil => exact fun N h => h
  | cons a rest ih =>
      intro N hN
      rw [List.foldl_cons]
      exact ih _ (hstep N a hN)

theorem nodupKeys_assemble (items : List ItemRecord) : NodupKeys (assemble items) := by
  unfold assemble
  refine nodupKeys_foldl pass2Step nodupKeys_pass2Step items _ ?_
  refine nodupKeys_foldl pass1Step nodupKeys_pass1Step items [] ?_
  simp [NodupKeys]

theorem mem_map_fst_reverse_pairs {nodes : Nodes} (hnd : NodupKeys nodes) (t : String) :
    t ∈ (reverse_pairs nodes).map Prod.fst ↔
      ∃ a e, e ∈ edgesOf nodes a ∧ (reverse_of e.relation).isSome = true ∧ e.name = t := by
  constructor
  · intro h
    rcases List.mem_map.mp h with ⟨pr, hpr, hfst⟩
    rcases pr with ⟨t2, e2⟩
    cases hfst
    rcases mem_reverse_pairs hpr with ⟨p, hp, e, hee, rr, rd, hrd, ht, he2⟩
    refine ⟨p.1, e, ?_, by rw [hrd]; rfl, ht.symm⟩
    unfold edgesOf
    rw [mem_findNode hnd (by rw [Prod.mk.eta]; exact hp)]
    exact hee
  · intro h
    rcases h with ⟨a, e, he, hrs, hname⟩
    unfold edgesOf at he
    rcases hf : findNode nodes a with _ | node
    · rw [hf] at he; simp at he
    · rw [hf] at he
      rcases hx : reverse_of e.relation with _ | rd
      · rw [hx] at hrs; simp at hrs
      · rcases rd with ⟨rr, rdir⟩
        have hmem := reverse_pairs_of_edge (findNode_mem hf) he hx
        exact List.mem_map.mpr
          ⟨(e.name, create_edge a rdir rr e.quantity e.dependency e.output_level e.input_level),
           hmem, hname⟩

theorem mem_edgesOf_assemble_double (L : List ItemRecord) (a : String) (e : Edge) :
    e ∈ edgesOf (assemble (L ++ L)) a ↔ e ∈ edgesOf (assemble L) a := by
  by_cases ha : a = ""
  · subst ha
    rw [edgesOf_assemble_empty, edgesOf_assemble_empty]
  · rw [edgesOf_assemble_char _ _ ha, edgesOf_assemble_char _ _ ha,
      List.filter_append, List.flatMap_append]
    constructor
    · intro h
      rcases List.mem_append.mp h with h | h <;> exact h
    · exact fun h => List.mem_append.mpr (Or.inl h)

/-- C9: building over a doubled item-record list yields the same node
names as building over the list once, and every node carries exactly twice
as many synthesizer-produced forward edges, counted at the assembler stage
before the reverse pass appends derived edges: duplicate records append
their edges, nothing is merged. -/
theorem no_dedup_doubling (L : List ItemRecord) :
    (∀ n, (findNode (build_relation_graph (L ++ L) none) n).isSome = true ↔
      (findNode (build_relation_graph L none) n).isSome = true) ∧
    (∀ n, (edgesOf (assemble (L ++ L)) n).length =
      2 * (edgesOf (assemble L) n).length) := by
  constructor
  · intro n
    have h0 : ∀ M : List ItemRecord, build_relation_graph M none =
        (reverse_pairs (assemble M)).foldl apply_reverse_step (assemble M) :=
      fun M => rfl
    rw [h0, h0, findNode_apply_reverse_isSome, findNode_apply_reverse_isSome]
    have hA : (findNode (assemble (L ++ L)) n).isSome = true ↔
        (findNode (assemble L) n).isSome = true := by
      rw [findNode_assemble_isSome, findNode_assemble_isSome]
      constructor
      · intro h
        rcases h with ⟨hn, r, hr, hb⟩
        rcases List.mem_append.mp hr with hr | hr <;> exact ⟨hn, r, hr, hb⟩
      · intro h
        rcases h with ⟨hn, r, hr, hb⟩
        exact ⟨hn, r, List.mem_append.mpr (Or.inl hr), hb⟩
    have hB : n ∈ (reverse_pairs (assemble (L ++ L))).map Prod.fst ↔
        n ∈ (reverse_pairs (assemble L)).map Prod.fst := by
      rw [mem_map_fst_reverse_pairs (nodupKeys_assemble _),
        mem_map_fst_reverse_pairs (nodupKeys_assemble _)]
      constructor
      · intro h
        rcases h with ⟨a, e, he, h1, h2⟩
        exact ⟨a, e, (mem_edgesOf_assemble_double L a e).mp he, h1, h2⟩
      · intro h
        rcases h with ⟨a, e, he, h1, h2⟩
        exact ⟨a, e, (mem_edgesOf_assemble_double L a e).mpr he, h1, h2⟩
    rw [hA, hB]
  · intro n
    by_cases hn : n = ""
    · subst hn
      rw [edgesOf_assemble_empty, edgesOf_assemble_empty]
      rfl
    · rw [edgesOf_assemble_char _ _ hn, edgesOf_assemble_char _ _ hn,
        List.filter_append, List.flatMap_append, List.length_append]
      omega

/-! First-writer preservation of descriptive attributes. -/

theorem findNode_pass1Step_ne (N : Nodes) (r : ItemRecord) (n : String)
    (hb : get_base_item_name r ≠ n) :
    findNode (pass1Step N r) n = findNode N n := by
  simp only [pass1Step]
  split_ifs with h1 h2
  · rfl
  · rfl
  · rw [findNode_setNode_ne _ _ _ _ hb]

theorem findNode_pass1_mono (items : List ItemRecord) :
    ∀ (N : Nodes) (n : String) (v : Node), findNode N n = some v →
      findNode (items.foldl pass1Step N) n = some v := by
  induction items with
  | nil => exact fun N n v h => h
  | cons r rest ih =>
      intro N n v h
      rw [List.foldl_cons]
      refine ih _ n v ?_
      by_cases hb : get_base_item_name r = n
      · simp only [pass1Step, hb]
        split_ifs with h1 h2
        · exact h
        · exact h
        · rw [h] at h2
          simp at h2
      · rw [findNode_pass1Step_ne _ _ _ hb]
        exact h

theorem findNode_pass1_first (items : List ItemRecord) :
    ∀ (N : Nodes) (n : String), n ≠ "" → findNode N n = none →
      findNode (items.foldl pass1Step N) n =
        (items.find? (fun r2 => get_base_item_name r2 == n)).map
          (fun r2 => create_node n "item" r2.wiki_url r2.source_url r2.infobox r2.image_urls) := by
  induction items with
  | nil =>
      intro N n hn hN
      simp [hN]
  | cons r rest ih =>
      intro N n hn hN
      rw [List.foldl_cons]
      by_cases hb : get_base_item_name r = n
      · have hset : pass1Step N r = setNode N n
            (create_node n "item" r.wiki_url r.source_url r.infobox r.image_urls) := by
          simp only [pass1Step, hb]
          rw [if_neg hn, hN]
          rfl
        rw [hset]
        have hfind : findNode (setNode N n
            (create_node n "item" r.wiki_url r.source_url r.infobox r.image_urls)) n =
            some (create_node n "item" r.wiki_url r.source_url r.infobox r.image_urls) :=
          findNode_setNode_self _ _ _
        rw [findNode_pass1_mono rest _ n _ hfind]
        rw [List.find?_cons_of_pos _ (by simp [hb])]
        rfl
      · rw [List.find?_cons_of_neg _ (by simp [hb])]
        have hN2 : findNode (pass1Step N r) n = none := by
          rw [findNode_pass1Step_ne _ _ _ hb]
          exact hN
        exact ih _ n hn hN2

theorem attrs_pass2Step (N : Nodes) (r : ItemRecord) (n : String) :
    (findNode (pass2Step N r) n).map nodeAttrs = (findNode N n).map nodeAttrs := by
  simp only [pass2Step]
  split_ifs with h1
  · rfl
  · rcases hf : findNode N (get_base_item_name r) with _ | node
    · rfl
    · by_cases hk : get_base_item_name r = n
      · subst hk
        rw [findNode_setNode_self, hf]
        rfl
      · rw [findNode_setNode_ne _ _ _ _ hk]

theorem attrs_pass2 (items : List ItemRecord) :
    ∀ (N : Nodes) (n : String),
      (findNode (items.foldl pass2Step N) n).map nodeAttrs =
        (findNode N n).map nodeAttrs := by
  induction items with
  | nil => exact fun N n => rfl
  | cons r rest ih =>
      intro N n
      rw [List.foldl_cons, ih, attrs_pass2Step]

theorem attrs_appendEdge (N : Nodes) (k : String) (e : Edge) (n : String) :
    (findNode (appendEdge N k e) n).map nodeAttrs = (findNode N n).map nodeAttrs := by
  unfold appendEdge
  rcases hf : findNode N k with _ | node
  · rfl
  · by_cases hk : k = n
    · subst hk
      rw [findNode_setNode_self, hf]
      rfl
    · rw [findNode_setNode_ne _ _ _ _ hk]

theorem attrs_ensureNode (N : Nodes) (k n : String)
    (hs : (findNode N n).isSome = true) :
    (findNode (ensureNode N k) n).map nodeAttrs = (findNode N n).map nodeAttrs := by
  unfold ensureNode
  split_ifs with h1
  · rfl
  · by_cases hk : k = n
    · subst hk
      exact absurd hs h1
    · rw [findNode_setNode_ne _ _ _ _ hk]

theorem isSome_ensureNode_mono (N : Nodes) (k n : String)
    (hs : (findNode N n).isSome = true) :
    (findNode (ensureNode N k) n).isSome = true := by
  unfold ensureNode
  split_ifs with h1
  · exact hs
  · by_cases hk : k = n
    · subst hk
      rw [findNode_setNode_self]
      rfl
    · rw [findNode_setNode_ne _ _ _ _ hk]
      exact hs

theorem attrs_processShopItem (N : Nodes) (tn : String) (it : ShopItem) (n : String)
    (hs : (findNode N n).isSome = true) :
    (findNode (processShopItem N tn it) n).map nodeAttrs = (findNode N n).map nodeAttrs ∧
    (findNode (processShopItem N tn it) n).isSome = true := by
  unfold processShopItem
  rcases h : truthyOpt it.name with _ | iname
  · exact ⟨rfl, hs⟩
  · have hs1 : (findNode (appendEdge N tn
        (create_edge iname "out" "trader" (some (JVal.i 1))
          (if shop_dependency it = [] then none else some (shop_dependency it)) none none)) n).isSome = true := by
      rw [findNode_appendEdge_isSome]
      exact hs
    constructor
    · rw [attrs_appendEdge, attrs_ensureNode _ _ _ hs1, attrs_appendEdge]
    · rw [findNode_appendEdge_isSome]
      exact isSome_ensureNode_mono _ _ _ hs1

theorem attrs_shop_fold (s : List ShopItem) (tn : String) :
    ∀ (N : Nodes) (n : String), (findNode N n).isSome = true →
      (findNode (s.foldl (fun ns it => processShopItem ns tn it) N) n).map nodeAttrs =
        (findNode N n).map nodeAttrs ∧
      (findNode (s.foldl (fun ns it => processShopItem ns tn it) N) n).isSome = true := by
  induction s with
  | nil => exact fun N n hs => ⟨rfl, hs⟩
  | cons it rest ih =>
      intro N n hs
      rw [List.foldl_cons]
      rcases attrs_processShopItem N tn it n hs with ⟨ha, hsome⟩
      rcases ih _ n hsome with ⟨ha2, hsome2⟩
      exact ⟨by rw [ha2, ha], hsome2⟩

theorem attrs_processTrader (N : Nodes) (t : TraderRecord) (n : String)
    (hs : (findNode N n).isSome = true) (ht : trader_key t ≠ some n) :
    (findNode (processTrader N t) n).map nodeAttrs = (findNode N n).map nodeAttrs ∧
    (findNode (processTrader N t) n).isSome = true := by
  unfold processTrader
  rcases hk : truthyOpt t.name with _ | tn
  · exact ⟨rfl, hs⟩
  · have htn : tn ≠ n := by
      intro hh
      exact ht (by rw [trader_key, hk, hh])
    have hfind : findNode (setNode N tn
        (create_node tn "trader" t.wiki_url t.source_url none t.image_urls)) n =
        findNode N n := findNode_setNode_ne _ _ _ _ htn
    rcases attrs_shop_fold (t.shop.getD []) tn _ n (by rw [hfind]; exact hs) with ⟨ha, hsome⟩
    exact ⟨by rw [ha, hfind], hsome⟩

theorem attrs_process_traders (ts : List TraderRecord) :
    ∀ (N : Nodes) (n : String), (findNode N n).isSome = true →
      (∀ t ∈ ts, trader_key t ≠ some n) →
      (findNode (ts.foldl processTrader N) n).map nodeAttrs =
        (findNode N n).map nodeAttrs ∧
      (findNode (ts.foldl processTrader N) n).isSome = true := by
  induction ts with
  | nil => exact fun N n hs _ => ⟨rfl, hs⟩
  | cons t rest ih =>
      intro N n hs htr
      rw [List.foldl_cons]
      rcases attrs_processTrader N t n hs (htr t (List.mem_cons_self _ _)) with ⟨ha, hsome⟩
      rcases ih _ n hsome (fun t2 ht2 => htr t2 (List.mem_cons_of_mem _ ht2)) with ⟨ha2, hsome2⟩
      exact ⟨by rw [ha2, ha], hsome2⟩

theorem attrs_apply_reverse (prs : List (String × Edge)) :
    ∀ (N : Nodes) (n : String), (findNode N n).isSome = true →
      (findNode (prs.foldl apply_reverse_step N) n).map nodeAttrs =
        (findNode N n).map nodeAttrs := by
  induction prs with
  | nil => exact fun N n hs => rfl
  | cons pr rest ih =>
      intro N n hs
      rw [List.foldl_cons]
      have hsome : (findNode (apply_reverse_step N pr) n).isSome = true := by
        unfold apply_reverse_step
        rw [findNode_appendEdge_isSome]
        exact isSome_ensureNode_mono _ _ _ hs
      rw [ih _ n hsome]
      unfold apply_reverse_step
      rw [attrs_appendEdge, attrs_ensureNode _ _ _ hs]

/-- C2 amended: first writer wins among item records: for a name not used
by any trader record, the node under that name carries the descriptive
attributes of the first item record of that name; a trader record, by
contrast, overwrites the node stored under its own name. -/
theorem first_writer_wins_items (items : List ItemRecord)
    (traders : Option (List TraderRecord)) (n : String) (r : ItemRecord)
    (hn : n ≠ "")
    (hfirst : items.find? (fun r2 => get_base_item_name r2 == n) = some r)
    (htr : ∀ t ∈ traders.getD [], trader_key t ≠ some n) :
    (findNode (build_relation_graph items traders) n).map nodeAttrs =
      some ("item", truthyOpt r.wiki_url, truthyOpt r.source_url,
            truthyList r.infobox, truthyList r.image_urls) := by
  have h1 : findNode (items.foldl pass1Step []) n =
      some (create_node n "item" r.wiki_url r.source_url r.infobox r.image_urls) := by
    rw [findNode_pass1_first items [] n hn rfl, hfirst]
    rfl
  have h2 : (findNode (assemble items) n).map nodeAttrs =
      some ("item", truthyOpt r.wiki_url, truthyOpt r.source_url,
            truthyList r.infobox, truthyList r.image_urls) := by
    unfold assemble
    rw [attrs_pass2, h1]
    rfl
  have h2s : (findNode (assemble items) n).isSome = true := by
    rcases hf : findNode (assemble items) n with _ | v
    · rw [hf] at h2
      simp at h2
    · rfl
  have h3 : (findNode (process_traders (assemble items) traders) n).map nodeAttrs =
      some ("item", truthyOpt r.wiki_url, truthyOpt r.source_url,
            truthyList r.infobox, truthyList r.image_urls) ∧
      (findNode (process_traders (assemble items) traders) n).isSome = true := by
    unfold process_traders
    rcases traders with _ | ts
    · exact ⟨h2, h2s⟩
    · rcases attrs_process_traders ts (assemble items) n h2s
        (fun t ht2 => htr t (by simpa using ht2)) with ⟨ha, hsome⟩
      exact ⟨by rw [ha, h2], hsome⟩
  have h0 : build_relation_graph items traders =
      (reverse_pairs (process_traders (assemble items) traders)).foldl
        apply_reverse_step (process_traders (assemble items) traders) := rfl
  rw [h0, attrs_apply_reverse _ _ n h3.2, h3.1]

/-- C2 witness. -/
theorem first_writer_wins_items_witness :
    (findNode (build_relation_graph [itemW2a, itemW2b] none) "N").map nodeAttrs =
      some ("item", truthyOpt itemW2a.wiki_url, truthyOpt itemW2a.source_url,
            truthyList itemW2a.infobox, truthyList itemW2a.image_urls) :=
  first_writer_wins_items [itemW2a, itemW2b] none "N" itemW2a (by decide) (by decide)
    (fun t ht => absurd ht (List.not_mem_nil t))

/-! Toward the bidirectional closure: key uniqueness through the trader
pass, coverage of appendEdge, and monotonicity of the inverse condition. -/

theorem nodupKeys_appendEdge (N : Nodes) (k : String) (e : Edge)
    (hnd : NodupKeys N) : NodupKeys (appendEdge N k e) := by
  unfold appendEdge
  rcases hf : findNode N k with _ | node
  · exact hnd
  · exact nodupKeys_setNode _ _ _ hnd

theorem nodupKeys_ensureNode (N : Nodes) (k : String)
    (hnd : NodupKeys N) : NodupKeys (ensureNode N k) := by
  unfold ensureNode
  split_ifs with h1
  · exact hnd
  · exact nodupKeys_setNode _ _ _ hnd

theorem nodupKeys_processShopItem (N : Nodes) (tn : String) (it : ShopItem)
    (hnd : NodupKeys N) : NodupKeys (processShopItem N tn it) := by
  unfold processShopItem
  rcases h : truthyOpt it.name with _ | iname
  · exact hnd
  · exact nodupKeys_appendEdge _ _ _
      (nodupKeys_ensureNode _ _ (nodupKeys_appendEdge _ _ _ hnd))

theorem nodupKeys_processTrader (N : Nodes) (t : TraderRecord)
    (hnd : NodupKeys N) : NodupKeys (processTrader N t) := by
  unfold processTrader
  rcases h : truthyOpt t.name with _ | tn
  · exact hnd
  · refine nodupKeys_foldl _ (fun N2 it h2 => nodupKeys_processShopItem N2 tn it h2)
      _ _ ?_
    exact nodupKeys_setNode _ _ _ hnd

theorem nodupKeys_after_traders (items : List ItemRecord)
    (traders : Option (List TraderRecord)) :
    NodupKeys (process_traders (assemble items) traders) := by
  unfold process_traders
  rcases traders with _ | ts
  · exact nodupKeys_assemble items
  · exact nodupKeys_foldl processTrader nodupKeys_processTrader ts _
      (nodupKeys_assemble items)

theorem appendEdge_cover {N : Nodes} {k : String} {x : Edge} {a : String} {e : Edge}
    (h : e ∈ edgesOf (appendEdge N k x) a) :
    e ∈ edgesOf N a ∨ (a = k ∧ e = x) := by
  by_cases hk : a = k
  · subst hk
    by_cases hs : (findNode N a).isSome = true
    · rw [edgesOf_appendEdge_self hs] at h
      rcases List.mem_append.mp h with h | h
      · exact Or.inl h
      · exact Or.inr ⟨rfl, List.mem_singleton.mp h⟩
    · rw [appendEdge_eq_of_none (Option.not_isSome_iff_eq_none.mp hs)] at h
      exact Or.inl h
  · rw [edgesOf_appendEdge_ne _ _ _ _ (fun hh => hk hh.symm)] at h
    exact Or.inl h

theorem hasInverse_growsTo {g1 g2 : Nodes} {a : String} {e : Edge}
    (hg : GrowsTo g1 g2) (h : hasInverse g1 a e) : hasInverse g2 a e := by
  rcases h with ⟨e2, hmem, hrest⟩
  exact ⟨e2, hg _ _ hmem, hrest⟩

theorem hasInverse_congr {g1 g2 : Nodes} {a : String} {e : Edge}
    (heq : edgesOf g2 e.name = edgesOf g1 e.name) (h : hasInverse g1 a e) :
    hasInverse g2 a e := by
  rcases h with ⟨e2, hmem, hrest⟩
  exact ⟨e2, heq ▸ hmem, hrest⟩

theorem synth_pair_not_ts {e : Edge} (h : synth_pair e) :
    ¬(e.relation = "trader" ∨ e.relation = "sold_by") := by
  rcases h with ⟨h1, _⟩ | ⟨h1, _⟩ | ⟨h1, _⟩ | ⟨h1, _⟩ | ⟨h1, _⟩ | ⟨h1, _⟩ <;>
    rw [h1] <;> decide

theorem ts_pair_reverse_of_none {e : Edge} (h : ts_pair e) :
    reverse_of e.relation = none := by
  rcases h.1 with ⟨h1, _⟩ | ⟨h1, _⟩ <;> rw [h1] <;> decide

theorem ts_pair_rel {e : Edge} (h : ts_pair e) :
    e.relation = "trader" ∨ e.relation = "sold_by" := by
  rcases h.1 with ⟨h1, _⟩ | ⟨h1, _⟩
  · exact Or.inl h1
  · exact Or.inr h1

theorem tsDom_mono {N : Nodes} {used used2 : List String}
    (hsub : ∀ x ∈ used, x ∈ used2) (h : tsDom N used) : tsDom N used2 := by
  intro a e he hts
  rcases h a e he hts with ⟨h1, h2⟩
  exact ⟨hsub _ h1, hsub _ h2⟩

theorem reverse_of_forward_facts {r d rr rd : String}
    (h : reverse_of r = some (rr, rd))
    (hpair : (r = "craft_from" ∧ d = "in") ∨ (r = "upgrade_from" ∧ d = "in") ∨
             (r = "upgrade_to" ∧ d = "out") ∨ (r = "repair_from" ∧ d = "in") ∨
             (r = "recycle_to" ∧ d = "out") ∨ (r = "salvage_to" ∧ d = "out")) :
    spec_inverse r = some rr ∧ rd = opposite d ∧
    spec_inverse rr = some r ∧ d = opposite rd := by
  rcases hpair with ⟨rfl, rfl⟩ | ⟨rfl, rfl⟩ | ⟨rfl, rfl⟩ | ⟨rfl, rfl⟩ | ⟨rfl, rfl⟩ | ⟨rfl, rfl⟩ <;>
    · simp only [reverse_of, if_pos, if_neg, String.reduceEq, reduceIte,
        Option.some.injEq, Prod.mk.injEq] at h
      obtain ⟨rfl, rfl⟩ := h
      decide

theorem tsOK_assemble (items : List ItemRecord) : tsOK (assemble items) := by
  intro a e he hts
  have hwf := AllE_edgesOf (AllE_assemble items) he
  exact absurd hts (synth_pair_not_ts hwf.1)

theorem tsDom_assemble (items : List ItemRecord) : tsDom (assemble items) [] := by
  intro a e he hts
  have hwf := AllE_edgesOf (AllE_assemble items) he
  exact absurd hts (synth_pair_not_ts hwf.1)

theorem ts_shop_core (N : Nodes) (tn iname : String) (dep : Option (List Tag))
    (used2 : List String)
    (hOK : tsOK N) (hDom : tsDom N used2) (htn : (findNode N tn).isSome = true)
    (htn2 : tn ∈ used2) (hin : iname ∈ used2) :
    tsOK (appendEdge
        (ensureNode
          (appendEdge N tn
            (create_edge iname "out" "trader" (some (JVal.i 1)) dep none none)) iname)
        iname
        (create_edge tn "in" "sold_by" (some (JVal.i 1)) dep none none)) ∧
    tsDom (appendEdge
        (ensureNode
          (appendEdge N tn
            (create_edge iname "out" "trader" (some (JVal.i 1)) dep none none)) iname)
        iname
        (create_edge tn "in" "sold_by" (some (JVal.i 1)) dep none none)) used2 ∧
    (findNode (appendEdge
        (ensureNode
          (appendEdge N tn
            (create_edge iname "out" "trader" (some (JVal.i 1)) dep none none)) iname)
        iname
        (create_edge tn "in" "sold_by" (some (JVal.i 1)) dep none none)) tn).isSome = true := by
  have hgrow : GrowsTo N
      (appendEdge
        (ensureNode
          (appendEdge N tn
            (create_edge iname "out" "trader" (some (JVal.i 1)) dep none none)) iname)
        iname
        (create_edge tn "in" "sold_by" (some (JVal.i 1)) dep none none)) :=
    growsTo_trans (growsTo_appendEdge _ _ _)
      (growsTo_trans (growsTo_ensureNode _ _) (growsTo_appendEdge _ _ _))
  have hmemT : create_edge iname "out" "trader" (some (JVal.i 1)) dep none none ∈
      edgesOf (appendEdge
        (ensureNode
          (appendEdge N tn
            (create_edge iname "out" "trader" (some (JVal.i 1)) dep none none)) iname)
        iname
        (create_edge tn "in" "sold_by" (some (JVal.i 1)) dep none none)) tn :=
    growsTo_trans (growsTo_ensureNode _ _) (growsTo_appendEdge _ _ _) _ _
      (mem_edgesOf_appendEdge _ _ _ htn)
  have hisome2 : (findNode
      (ensureNode
        (appendEdge N tn
          (create_edge iname "out" "trader" (some (JVal.i 1)) dep none none)) iname)
      iname).isSome = true :=
    findNode_ensureNode_isSome _ _
  have hmemS : create_edge tn "in" "sold_by" (some (JVal.i 1)) dep none none ∈
      edgesOf (appendEdge
        (ensureNode
          (appendEdge N tn
            (create_edge iname "out" "trader" (some (JVal.i 1)) dep none none)) iname)
        iname
        (create_edge tn "in" "sold_by" (some (JVal.i 1)) dep none none)) iname :=
    mem_edgesOf_appendEdge _ _ _ hisome2
  refine ⟨?_, ?_, ?_⟩
  · intro a e he hts
    rcases appendEdge_cover he with he2 | ⟨rfl, rfl⟩
    · rw [edgesOf_ensureNode] at he2
      rcases appendEdge_cover he2 with he3 | ⟨rfl, rfl⟩
      · exact hasInverse_growsTo hgrow (hOK a e he3 hts)
      · exact ⟨create_edge a "in" "sold_by" (some (JVal.i 1)) dep none none,
          hmemS, rfl, show spec_inverse "trader" = some "sold_by" by decide,
          show "in" = opposite "out" by decide, rfl, rfl, rfl, rfl⟩
    · exact ⟨create_edge a "out" "trader" (some (JVal.i 1)) dep none none,
        hmemT, rfl, show spec_inverse "sold_by" = some "trader" by decide,
        show "out" = opposite "in" by decide, rfl, rfl, rfl, rfl⟩
  · intro a e he hts
    rcases appendEdge_cover he with he2 | ⟨rfl, rfl⟩
    · rw [edgesOf_ensureNode] at he2
      rcases appendEdge_cover he2 with he3 | ⟨rfl, rfl⟩
      · exact hDom a e he3 hts
      · exact ⟨htn2, hin⟩
    · exact ⟨hin, htn2⟩
  · rw [findNode_appendEdge_isSome]
    refine isSome_ensureNode_mono _ _ _ ?_
    rw [findNode_appendEdge_isSome]
    exact htn

theorem ts_processShopItem (N : Nodes) (tn : String) (it : ShopItem)
    (used2 : List String)
    (hOK : tsOK N) (hDom : tsDom N used2) (htn : (findNode N tn).isSome = true)
    (htn2 : tn ∈ used2)
    (hit : ∀ iname, truthyOpt it.name = some iname → iname ∈ used2) :
    tsOK (processShopItem N tn it) ∧ tsDom (processShopItem N tn it) used2 ∧
      (findNode (processShopItem N tn it) tn).isSome = true := by
  rcases h : truthyOpt it.name with _ | iname
  · rw [processShopItem_skip _ _ _ h]
    exact ⟨hOK, hDom, htn⟩
  · have hshape : processShopItem N tn it =
        appendEdge
          (ensureNode
            (appendEdge N tn
              (create_edge iname "out" "trader" (some (JVal.i 1))
                (if shop_dependency it = [] then none else some (shop_dependency it))
                none none)) iname)
          iname
          (create_edge tn "in" "sold_by" (some (JVal.i 1))
            (if shop_dependency it = [] then none else some (shop_dependency it))
            none none) := by
      unfold processShopItem
      rw [h]
    rw [hshape]
    exact ts_shop_core N tn iname _ used2 hOK hDom htn htn2 (hit iname h)

theorem ts_shop_fold (s : List ShopItem) (tn : String) :
    ∀ (N : Nodes) (used2 : List String), tn ∈ used2 →
      (∀ it ∈ s, ∀ iname, truthyOpt it.name = some iname → iname ∈ used2) →
      tsOK N → tsDom N used2 → (findNode N tn).isSome = true →
      tsOK (s.foldl (fun ns it => processShopItem ns tn it) N) ∧
      tsDom (s.foldl (fun ns it => processShopItem ns tn it) N) used2 ∧
      (findNode (s.foldl (fun ns it => processShopItem ns tn it) N) tn).isSome = true := by
  induction s with
  | nil => exact fun N used2 _ _ h1 h2 h3 => ⟨h1, h2, h3⟩
  | cons it rest ih =>
      intro N used2 htn2 hsub h1 h2 h3
      rw [List.foldl_cons]
      rcases ts_processShopItem N tn it used2 h1 h2 h3 htn2
        (hsub it (List.mem_cons_self _ _)) with ⟨g1, g2, g3⟩
      exact ih _ used2 htn2 (fun it2 hit2 => hsub it2 (List.mem_cons_of_mem _ hit2))
        g1 g2 g3

theorem ts_processTrader (N : Nodes) (t : TraderRecord) (used : List String)
    (hOK : tsOK N) (hDom : tsDom N used)
    (hd : ∀ n2, trader_key t = some n2 → n2 ∉ used) :
    tsOK (processTrader N t) ∧ tsDom (processTrader N t) (used ++ trader_names t) := by
  rcases hk : truthyOpt t.name with _ | tn
  · rw [processTrader_skip _ _ hk]
    exact ⟨hOK, tsDom_mono (fun x hx => List.mem_append.mpr (Or.inl hx)) hDom⟩
  · have htk : trader_key t = some tn := by rw [trader_key, hk]
    have htn_used : tn ∉ used := hd tn htk
    have hshape : processTrader N t =
        (t.shop.getD []).foldl (fun ns it => processShopItem ns tn it)
          (setNode N tn (create_node tn "trader" t.wiki_url t.source_url none t.image_urls)) := by
      unfold processTrader
      rw [hk]
    rw [hshape]
    have hN1OK : tsOK (setNode N tn
        (create_node tn "trader" t.wiki_url t.source_url none t.image_urls)) := by
      intro a e he hts
      by_cases ha : a = tn
      · subst ha
        rw [edgesOf_setNode_self] at he
        simp [create_node] at he
      · rw [edgesOf_setNode_ne _ _ _ _ (fun hh => ha hh.symm)] at he
        have hne : e.name ≠ tn := fun hh => htn_used (hh ▸ (hDom a e he hts).2)
        exact hasInverse_congr (edgesOf_setNode_ne _ _ _ _ (fun hh => hne hh.symm))
          (hOK a e he hts)
    have hN1Dom : tsDom (setNode N tn
        (create_node tn "trader" t.wiki_url t.source_url none t.image_urls))
        (used ++ trader_names t) := by
      intro a e he hts
      by_cases ha : a = tn
      · subst ha
        rw [edgesOf_setNode_self] at he
        simp [create_node] at he
      · rw [edgesOf_setNode_ne _ _ _ _ (fun hh => ha hh.symm)] at he
        rcases hDom a e he hts with ⟨h1, h2⟩
        exact ⟨List.mem_append.mpr (Or.inl h1), List.mem_append.mpr (Or.inl h2)⟩
    have hsub : ∀ it ∈ t.shop.getD [], ∀ iname,
        truthyOpt it.name = some iname → iname ∈ used ++ trader_names t := by
      intro it hit iname hname
      refine List.mem_append.mpr (Or.inr ?_)
      unfold trader_names
      refine List.mem_append.mpr (Or.inr ?_)
      unfold shop_names
      exact List.mem_filterMap.mpr ⟨it, hit, hname⟩
    have htn2 : tn ∈ used ++ trader_names t := by
      refine List.mem_append.mpr (Or.inr ?_)
      unfold trader_names
      refine List.mem_append.mpr (Or.inl ?_)
      rw [htk]
      exact List.mem_singleton_self _
    have hisome : (findNode (setNode N tn
        (create_node tn "trader" t.wiki_url t.source_url none t.image_urls)) tn).isSome = true := by
      rw [findNode_setNode_self]
      rfl
    rcases ts_shop_fold (t.shop.getD []) tn _ (used ++ trader_names t) htn2 hsub
      hN1OK hN1Dom hisome with ⟨g1, g2, g3⟩
    exact ⟨g1, g2⟩

theorem ts_traders_fold (ts : List TraderRecord) :
    ∀ (N : Nodes) (used : List String),
      tsOK N → tsDom N used → freshList ts = true →
      (∀ t2 ∈ ts, ∀ n2, trader_key t2 = some n2 → n2 ∉ used) →
      tsOK (ts.foldl processTrader N) ∧
      tsDom (ts.foldl processTrader N) (used ++ ts.flatMap trader_names) := by
  induction ts with
  | nil =>
      intro N used h1 h2 _ _
      rw [List.foldl_nil]
      refine ⟨h1, ?_⟩
      simpa using h2
  | cons t rest ih =>
      intro N used h1 h2 hfresh hdisj
      rw [List.foldl_cons]
      have hfr : (rest.all (fun t2 =>
          match trader_key t2 with
          | none => true
          | some n2 =>
              !(decide (trader_key t = some n2)) && !(decide (n2 ∈ shop_names t)))) = true ∧
          freshList rest = true := by
        have h2 := hfresh
        simp only [freshList, Bool.and_eq_true] at h2
        exact h2
      rcases ts_processTrader N t used h1 h2 (hdisj t (List.mem_cons_self _ _)) with ⟨g1, g2⟩
      have hdisj2 : ∀ t2 ∈ rest, ∀ n2, trader_key t2 = some n2 →
          n2 ∉ used ++ trader_names t := by
        intro t2 ht2 n2 hk2 hmem
        rcases List.mem_append.mp hmem with hmem | hmem
        · exact hdisj t2 (List.mem_cons_of_mem _ ht2) n2 hk2 hmem
        · have hall := List.all_eq_true.mp hfr.1 t2 ht2
          simp only [hk2] at hall
          rw [Bool.and_eq_true] at hall
          rcases hall with ⟨hall1, hall2⟩
          rw [Bool.not_eq_true', decide_eq_false_iff_not] at hall1 hall2
          unfold trader_names at hmem
          rcases List.mem_append.mp hmem with hmem2 | hmem2
          · exact hall1 (Option.mem_def.mp (Option.mem_toList.mp hmem2))
          · exact hall2 hmem2
      rcases ih _ _ g1 g2 hfr.2 hdisj2 with ⟨f1, f2⟩
      refine ⟨f1, ?_⟩
      have hre : used ++ (t :: rest).flatMap trader_names =
          (used ++ trader_names t) ++ rest.flatMap trader_names := by
        rw [List.flatMap_cons, List.append_assoc]
      rw [hre]
      exact f2

theorem tsOK_after_traders (items : List ItemRecord)
    (traders : Option (List TraderRecord))
    (hfresh : freshList (traders.getD []) = true) :
    tsOK (process_traders (assemble items) traders) := by
  unfold process_traders
  rcases traders with _ | ts
  · exact tsOK_assemble items
  · exact (ts_traders_fold ts (assemble items) [] (tsOK_assemble items)
      (tsDom_assemble items) (by simpa using hfresh)
      (fun t ht n2 hk => List.not_mem_nil n2)).1

/-- C1 amended: bidirectional closure holds for every edge of the output
graph, including trader and sold_by edges, provided no trader record
repeats the name of an earlier trader record or of an item listed in an
earlier trader shop (otherwise the unconditional trader-node assignment
wipes edges whose partners survive): for every edge owned by A pointing to
B there is an edge owned by B pointing back to A with the inverse relation,
the opposite direction, the same quantity and dependency, and the levels
swapped. -/
theorem bidirectional_closure (items : List ItemRecord)
    (traders : Option (List TraderRecord))
    (hfresh : freshList (traders.getD []) = true) :
    ∀ k e, e ∈ edgesOf (build_relation_graph items traders) k →
      hasInverse (build_relation_graph items traders) k e := by
  intro k e he
  have h0 : build_relation_graph items traders =
      (reverse_pairs (process_traders (assemble items) traders)).foldl
        apply_reverse_step (process_traders (assemble items) traders) := rfl
  have hgrow : GrowsTo (process_traders (assemble items) traders)
      (build_relation_graph items traders) := by
    rw [h0]
    exact growsTo_foldl_apply _ _
  rw [h0] at he
  rcases apply_reverse_cover _ he with hc | hc
  · have hwf := AllE_edgesOf (AllE_after_traders items traders) hc
    rcases hwf with ⟨hp | hts, hnorm⟩
    · obtain ⟨rr, rd, hrd⟩ : ∃ rr rd, reverse_of e.relation = some (rr, rd) := by
        rcases hp with ⟨h1, _⟩ | ⟨h1, _⟩ | ⟨h1, _⟩ | ⟨h1, _⟩ | ⟨h1, _⟩ | ⟨h1, _⟩ <;> rw [h1]
        · exact ⟨"craft_to", "out", by decide⟩
        · exact ⟨"upgrade_to", "out", by decide⟩
        · exact ⟨"upgrade_from", "in", by decide⟩
        · exact ⟨"repair_to", "out", by decide⟩
        · exact ⟨"recycle_from", "in", by decide⟩
        · exact ⟨"salvage_from", "in", by decide⟩
      have hfacts := reverse_of_forward_facts hrd hp
      obtain ⟨node, hfind⟩ : ∃ node,
          findNode (process_traders (assemble items) traders) k = some node := by
        unfold edgesOf at hc
        rcases hf : findNode (process_traders (assemble items) traders) k with _ | nd
        · rw [hf] at hc
          simp at hc
        · exact ⟨nd, rfl⟩
      have hemem : e ∈ node.edges := by
        unfold edgesOf at hc
        rw [hfind] at hc
        exact hc
      have hpairmem := reverse_pairs_of_edge (findNode_mem hfind) hemem hrd
      have hrevmem :=
        @mem_apply_reverse (reverse_pairs (process_traders (assemble items) traders))
          (process_traders (assemble items) traders) _ hpairmem
      refine ⟨create_edge k rd rr e.quantity e.dependency e.output_level e.input_level,
        ?_, rfl, ?_, ?_, rfl, ?_, ?_, ?_⟩
      · rw [h0]
        exact hrevmem
      · exact hfacts.1
      · exact hfacts.2.1
      · exact create_edge_dependency _ _ _ _ _ _ _ hnorm.2.2
      · exact truthyOpt_eq_self _ hnorm.2.1
      · exact truthyOpt_eq_self _ hnorm.1
    · exact hasInverse_growsTo hgrow
        (tsOK_after_traders items traders hfresh k e hc (ts_pair_rel hts))
  · rcases mem_reverse_pairs hc with ⟨p, hp, e0, he0, rr, rd, hrd, hkname, rfl⟩
    have hfind0 : findNode (process_traders (assemble items) traders) p.1 = some p.2 :=
      mem_findNode (nodupKeys_after_traders items traders) (by rw [Prod.mk.eta]; exact hp)
    have he0mem : e0 ∈ edgesOf (process_traders (assemble items) traders) p.1 := by
      unfold edgesOf
      rw [hfind0]
      exact he0
    have hwf0 := AllE_edgesOf (AllE_after_traders items traders) he0mem
    have hp0 : synth_pair e0 := by
      rcases hwf0.1 with h | h
      · exact h
      · rw [ts_pair_reverse_of_none h] at hrd
        simp at hrd
    have hfacts := reverse_of_forward_facts hrd hp0
    refine ⟨e0, ?_, hkname.symm, ?_, ?_, rfl, ?_, ?_, ?_⟩
    · exact hgrow _ _ he0mem
    · exact hfacts.2.2.1
    · exact hfacts.2.2.2
    · exact (create_edge_dependency _ _ _ _ _ _ _ hwf0.2.2.2).symm
    · exact (truthyOpt_eq_self _ hwf0.2.1).symm
    · exact (truthyOpt_eq_self _ hwf0.2.2.1).symm

/-- C1 witness. -/
theorem bidirectional_closure_witness :
    hasInverse (build_relation_graph [itemA6] none) "A" edgeA6 :=
  bidirectional_closure [itemA6] none (by decide) "A" edgeA6 (by decide)
